import Mathlib

set_option maxRecDepth 100000

/-
Verification of the regex-to-automata pipeline (NFA construction, subset
construction, DFA minimization, syntactic monoid) against its specification.

The Rust source is shallowly embedded: states are indices into lists,
transition tables are lists of optional entries (mirroring the dense
arrays of the source), a StateSet is a canonical strictly ascending list
of naturals (mirroring the HashSet with value equality: two sets with the
same members are represented by the same list), and the worklist loops of
the source are embedded as fueled structural recursions whose fuel is
provably sufficient.  Where the source iterates over a HashSet (whose
order is unspecified in Rust), the embedding iterates in ascending order.
-/

namespace Re

/-- StateSet from nfa.rs: a HashSet of state indices with value equality.
Embedded as a strictly ascending list of naturals, kept canonical by the
insertion and union operations below. -/
abbrev StateSet := List ℕ

/-- Set insertion keeping the list strictly ascending (a member already
present is not duplicated). -/
def ssInsert (x : ℕ) : StateSet → StateSet
  | [] => [x]
  | y :: ys => if x < y then x :: y :: ys else if x = y then y :: ys else y :: ssInsert x ys

/-- Set union (HashSet union collected into a fresh set). -/
def ssUnion (a b : StateSet) : StateSet :=
  b.foldl (fun acc x => ssInsert x acc) a

/-- Label from nfa.rs. -/
inductive Label where
  | Epsilon : Label
  | Input : ℕ → Label
  | Dot : Label

/-- NFA State from nfa.rs: a 257-entry transition table (index 256 holds the
epsilon transitions), an id, and an accept flag. -/
structure NState where
  transition : List (Option StateSet)
  id : ℕ
  accept : Bool
deriving DecidableEq

instance : Inhabited NState := ⟨⟨[], 0, false⟩⟩

/-- Nfa from nfa.rs. -/
structure Nfa where
  states : List NState
deriving DecidableEq

/-- Reading a state by index; Rust uses direct indexing (which panics when out
of bounds), the embedding supplies the default state, and theorems carry the
validity hypotheses that keep every access in bounds. -/
def Nfa.stateF (nfa : Nfa) (i : ℕ) : NState :=
  nfa.states.getD i default

/-- Helper for State::insert_transition: ensure entry c holds a set, then
insert the target state into it. -/
def addTarget (tr : List (Option StateSet)) (c target : ℕ) : List (Option StateSet) :=
  tr.set c (some (ssInsert target ((tr.getD c none).getD [])))

/-- State::insert_transition from nfa.rs: a Dot label inserts the target on
every byte 0..=255, Input c inserts on byte c, Epsilon inserts at index 256. -/
def NState.insert_transition (st : NState) (label : Label) (target : ℕ) : NState :=
  match label with
  | Label.Dot =>
      { st with transition := (List.range 256).foldl (fun tr i => addTarget tr i target) st.transition }
  | Label.Input c =>
      { st with transition := addTarget st.transition c target }
  | Label.Epsilon =>
      { st with transition := addTarget st.transition 256 target }

/-- Nfa::add_state from nfa.rs: push a fresh state (257 empty transition
entries, id equal to its position, accept false). -/
def Nfa.add_state (nfa : Nfa) : Nfa :=
  { states := nfa.states ++ [{ transition := List.replicate 257 none,
                               id := nfa.states.length, accept := false }] }

/-- Apply insert_transition to the state at index i (mirrors
self.states[i].insert_transition(..)). -/
def Nfa.insertAt (nfa : Nfa) (i : ℕ) (label : Label) (target : ℕ) : Nfa :=
  { states := nfa.states.set i ((nfa.stateF i).insert_transition label target) }

/-- The syntax tree consumed by Nfa::construct: exactly the node shapes the
source accepts (any other variant panics).  A Literal carries the code of the
first character of its value string (the source truncates it with an as-u8
cast, embedded as mod 256 at use). -/
inductive Node where
  | Literal : ℕ → Node
  | Dot : Node
  | OpConcat : Node → Node → Node
  | OpUnion : Node → Node → Node
  | OpStar : Node → Node

/-- Nfa::construct from nfa.rs, transcribed case by case. -/
def Nfa.constructNode (nfa : Nfa) (node : Node) : Nfa :=
  match node with
  | Node.OpUnion lhs rhs =>
      let nfa := nfa.add_state
      let branch_node_id := nfa.states.length - 1
      let nfa := nfa.insertAt branch_node_id Label.Epsilon nfa.states.length
      let nfa := nfa.constructNode lhs
      let nfa := nfa.add_state
      let lhs_last_state_id := nfa.states.length - 1
      let nfa := nfa.insertAt branch_node_id Label.Epsilon nfa.states.length
      let nfa := nfa.constructNode rhs
      nfa.insertAt lhs_last_state_id Label.Epsilon nfa.states.length
  | Node.OpConcat lhs rhs =>
      (nfa.constructNode lhs).constructNode rhs
  | Node.OpStar lhs =>
      let nfa := nfa.add_state
      let loop_node_id := nfa.states.length - 1
      let nfa := nfa.insertAt loop_node_id Label.Epsilon (loop_node_id + 1)
      let nfa := nfa.constructNode lhs
      let nfa := nfa.add_state
      let last_state_id := nfa.states.length - 1
      let nfa := nfa.insertAt last_state_id Label.Epsilon loop_node_id
      nfa.insertAt loop_node_id Label.Epsilon nfa.states.length
  | Node.Dot =>
      let nfa := nfa.add_state
      nfa.insertAt (nfa.states.length - 1) Label.Dot nfa.states.length
  | Node.Literal value =>
      let nfa := nfa.add_state
      nfa.insertAt (nfa.states.length - 1) (Label.Input (value % 256)) nfa.states.length

/-- Setting the accept flag of the state at index i (mirrors
self.states[i].accept = true). -/
def Nfa.setAccept (nfa : Nfa) (i : ℕ) : Nfa :=
  { states := nfa.states.set i { nfa.stateF i with accept := true } }

/-- Nfa::re2nfa from nfa.rs, applied to an already parsed syntax tree (the
regex parser is an external crate and out of scope): one initial state with an
epsilon edge to the tree entry, the tree construction, then a final state
marked accepting. -/
def Nfa.re2nfa (root : Node) : Nfa :=
  let nfa : Nfa := { states := [] }
  let nfa := nfa.add_state
  let nfa := nfa.insertAt (nfa.states.length - 1) Label.Epsilon nfa.states.length
  let nfa := nfa.constructNode root
  let nfa := nfa.add_state
  nfa.setAccept (nfa.states.length - 1)

/-- The set of epsilon successors of a state: entry 256 of its transition
table (empty when the entry is absent). -/
def Nfa.epsSucc (nfa : Nfa) (s : ℕ) : StateSet :=
  ((nfa.stateF s).transition.getD 256 none).getD []

/-- One worklist loop of Nfa::epsilon_expand.  The Rust code keeps a Vec used
as a stack (pop from the back, push to the back); the embedding keeps the top
of the stack at the head of the list.  Each popped state is inserted into
done; its epsilon successors not yet in done are pushed.  The HashSet
iteration of the successors is embedded in ascending order. -/
def expandGo (nfa : Nfa) : ℕ → List ℕ → StateSet → StateSet
  | 0, _, done => done
  | _ + 1, [], done => done
  | fuel + 1, s :: qs, done =>
      let done2 := ssInsert s done
      let pushes := (nfa.epsSucc s).filter (fun t => decide (t ∉ done2))
      expandGo nfa fuel (pushes.reverse ++ qs) done2

/-- Fuel that provably suffices for the worklist of epsilon_expand (the loop
measure is bounded by the queue length plus (N+1) per state not yet done). -/
def expandFuel (nfa : Nfa) (S : StateSet) : ℕ :=
  S.length + (nfa.states.length + 1) * (nfa.states.length + 1)

/-- Nfa::epsilon_expand from nfa.rs: seed the stack with the members of the
set, return the set of all popped states. -/
def Nfa.epsilon_expand (nfa : Nfa) (S : StateSet) : StateSet :=
  expandGo nfa (expandFuel nfa S) S.reverse []

/-- Nfa::start_states from nfa.rs: the epsilon closure of {0}. -/
def Nfa.start_states (nfa : Nfa) : StateSet :=
  nfa.epsilon_expand [0]

/-- Nfa::t from nfa.rs: the entry of state id on byte c, unioned with its
epsilon expansion; absent when the raw entry is absent. -/
def Nfa.t (nfa : Nfa) (id c : ℕ) : Option StateSet :=
  match (nfa.stateF id).transition.getD c none with
  | some nfaT => some (ssUnion nfaT (nfa.epsilon_expand nfaT))
  | none => none

/-- DFA State from dfa.rs: a dense 256-entry table of optional successor
indices, an id, and an accept flag. -/
structure DState where
  t : List (Option ℕ)
  id : ℕ
  accept : Bool
deriving DecidableEq

instance : Inhabited DState := ⟨⟨List.replicate 256 none, 0, false⟩⟩

/-- Dfa from dfa.rs. -/
structure Dfa where
  states : List DState
  state_num : ℕ
deriving DecidableEq

/-- Reading a DFA state by index (Rust indexes directly and panics out of
bounds; theorems carry the bounds). -/
def Dfa.stateF (dfa : Dfa) (i : ℕ) : DState :=
  dfa.states.getD i default

/-- The member loop of Dfa::construct that fills the transitions row of a
dequeued subset: for each NFA state in the subset (HashSet iteration, embedded
in ascending order) and each byte c, when Nfa::t returns a set the row entry
at c is OVERWRITTEN with it (the source assigns instead of unioning). -/
def subsetRow (nfa : Nfa) (subset : StateSet) : List (Option StateSet) :=
  subset.foldl
    (fun tr s =>
      (List.range 256).foldl
        (fun tr c =>
          match nfa.t s c with
          | some nfaT => tr.set c (some nfaT)
          | none => tr) tr)
    (List.replicate 256 none)

/-- The accept flag of a dequeued subset: the OR of the accept flags of its
members, as accumulated by the member loop of Dfa::construct. -/
def subsetAccept (nfa : Nfa) (subset : StateSet) : Bool :=
  subset.foldl (fun a s => a || (nfa.stateF s).accept) false

/-- Lookup in the subset-to-state HashMap of Dfa::construct, embedded as an
association list (keys are inserted at most once). -/
def mapLookup (map : List (StateSet × ℕ)) (k : StateSet) : Option ℕ :=
  (map.find? (fun kv => decide (kv.1 = k))).map (fun kv => kv.2)

/-- The byte loop of one Dfa::construct iteration: starting from a fresh
256-entry row for the new DFA state, allocate map entries and enqueue newly
seen subsets, and record the mapped index for each present transition. -/
def constructByteLoop (transitions : List (Option StateSet))
    (map : List (StateSet × ℕ)) (mapNum : ℕ) (queue : List StateSet) :
    List (Option ℕ) × List (StateSet × ℕ) × ℕ × List StateSet :=
  (List.range 256).foldl
    (fun st c =>
      let tArr := st.1
      let map := st.2.1
      let mapNum := st.2.2.1
      let queue := st.2.2.2
      match transitions.getD c none with
      | some next =>
          match mapLookup map next with
          | some v => (tArr.set c (some v), map, mapNum, queue)
          | none => (tArr.set c (some mapNum), map ++ [(next, mapNum)], mapNum + 1, queue ++ [next])
      | none => st)
    (List.replicate 256 none, map, mapNum, queue)

/-- The while loop of Dfa::construct, fueled.  The queue is a FIFO (VecDeque
pushed at the back, popped at the front, head of the list is the front); the
map value counter state_num and the per-state id counter of Dfa::new_state are
kept separately exactly as in the source. -/
def constructGo (nfa : Nfa) :
    ℕ → List StateSet → List (StateSet × ℕ) → ℕ → List DState → ℕ → Dfa
  | 0, _, _, mapNum, dstates, _ => { states := dstates, state_num := mapNum }
  | _ + 1, [], _, mapNum, dstates, _ => { states := dstates, state_num := mapNum }
  | fuel + 1, subset :: qs, map, mapNum, dstates, dnum =>
      let accept := subsetAccept nfa subset
      let transitions := subsetRow nfa subset
      let sid := dnum
      let res := constructByteLoop transitions map mapNum qs
      constructGo nfa fuel res.2.2.2 res.2.1 res.2.2.1
        (dstates ++ [{ t := res.1, id := sid, accept := accept }]) (dnum + 1)

/-- Dfa::construct from dfa.rs: seed the queue and map with the start subset;
the fuel bounds the number of dequeues by the number of distinct subsets. -/
def Dfa.construct (nfa : Nfa) : Dfa :=
  constructGo nfa (2 ^ nfa.states.length + 1)
    [nfa.start_states] [(nfa.start_states, 0)] 1 [] 0

/-- Dfa::nfa2dfa from dfa.rs. -/
def Dfa.nfa2dfa (nfa : Nfa) : Dfa :=
  Dfa.construct nfa

/-- The character loop of Dfa::accept: walk the transition table from the
given state value; a missing entry returns false, exhausting the input
returns true (the accept flag of the final state is never read). -/
def acceptGo (dfa : Dfa) : DState → List ℕ → Bool
  | _, [] => true
  | st, c :: cs =>
      match st.t.getD c none with
      | some next => acceptGo dfa (dfa.stateF next) cs
      | none => false

/-- Dfa::accept from dfa.rs, on the list of character codes of the input. -/
def Dfa.accept (dfa : Dfa) (s : List ℕ) : Bool :=
  acceptGo dfa (dfa.stateF 0) s

/-- The partial walk of a DFA from a state index: some final state when every
character has a present entry, none otherwise. -/
def walk (dfa : Dfa) : ℕ → List ℕ → Option ℕ
  | s, [] => some s
  | s, c :: cs =>
      match (dfa.stateF s).t.getD c none with
      | some n => walk dfa n cs
      | none => none

/-- The same DFA with every accept flag replaced through g (used to state that
Dfa::accept never reads the flags). -/
def Dfa.withFlags (dfa : Dfa) (g : ℕ → Bool) : Dfa :=
  { states := dfa.states.map (fun st => { st with accept := g st.id }),
    state_num := dfa.state_num }

/-- The raw transition set of an NFA state on byte c (empty when absent). -/
def rawTrans (nfa : Nfa) (s c : ℕ) : StateSet :=
  ((nfa.stateF s).transition.getD c none).getD []

/-- Modelled from the spec: the transition entry claimed for subset
construction, namely the epsilon closure of the union over all members s of Q
of the transition sets of s on byte c, left absent exactly when that closure
is empty.  Stated for comparison with subsetRow. -/
def claimedEntry (nfa : Nfa) (Q : StateSet) (c : ℕ) : Option StateSet :=
  let T := nfa.epsilon_expand (Q.foldl (fun acc s => ssUnion acc (rawTrans nfa s c)) [])
  if T.isEmpty then none else some T

/-- Monoid from monoid.rs (the TransitionPat pat vector is embedded as a list
of naturals). -/
structure Monoid where
  multiply_table : List (List ℕ)
  char_morphism : List ℕ
deriving DecidableEq

/-- TransitionPat::identity from monoid.rs: the identity map on the extended
state space 0..=dfa_size. -/
def TransitionPat.identity (dfa_size : ℕ) : List ℕ :=
  List.range (dfa_size + 1)

/-- TransitionPat::multiply from monoid.rs: out_pat[i] = other.pat[self.pat[i]]. -/
def tpMultiply (a b : List ℕ) : List ℕ :=
  a.map (fun s => b.getD s 0)

/-- The next pattern computed inside the byte loop of Monoid::construct:
follow pat by the action of byte c, sending the dead sentinel and every
missing transition to the sentinel. -/
def genNext (dfa : Dfa) (pat : List ℕ) (c : ℕ) : List ℕ :=
  (List.range (dfa.states.length + 1)).map (fun i =>
    let p := pat.getD i 0
    if p = dfa.states.length then dfa.states.length
    else
      match (dfa.stateF p).t.getD c none with
      | some next_state => next_state
      | none => dfa.states.length)

/-- Lookup in the transitions_map HashMap, embedded as an association list. -/
def mmapLookup (map : List (List ℕ × ℕ)) (k : List ℕ) : Option ℕ :=
  (map.find? (fun kv => decide (kv.1 = k))).map (fun kv => kv.2)

/-- HashMap::insert semantics: replace the value of an existing key, append
otherwise. -/
def mmapInsert (map : List (List ℕ × ℕ)) (k : List ℕ) (v : ℕ) : List (List ℕ × ℕ) :=
  if (mmapLookup map k).isSome then
    map.map (fun kv => if kv.1 = k then (k, v) else kv)
  else map ++ [(k, v)]

/-- The byte loop of Monoid::construct for one popped pattern.  The source
tests transitions_map.contains_key(&next) (with no negation) before inserting;
when the branch is taken with pat equal to the identity it writes
char_morphism[c] into a Vec that was never grown, which panics (embedded as
none). -/
def monoidByteLoop (dfa : Dfa) (ident pat : List ℕ)
    (map : List (List ℕ × ℕ)) (morph : List ℕ) (queue : List (List ℕ)) :
    Option (List (List ℕ × ℕ) × List ℕ × List (List ℕ)) :=
  (List.range 256).foldl
    (fun ost c =>
      match ost with
      | none => none
      | some st =>
          let map := st.1
          let morph := st.2.1
          let queue := st.2.2
          let next := genNext dfa pat c
          if (mmapLookup map next).isSome then
            let tmapLen := map.length
            let map := mmapInsert map next tmapLen
            if pat = ident then
              if c < morph.length then some (map, morph.set c tmapLen, queue ++ [next])
              else none
            else some (map, morph, queue ++ [next])
          else some (map, morph, queue))
    (some (map, morph, queue))

/-- The while loop of Monoid::construct, fueled (the VecDeque pushes at the
front and pops at the back, a FIFO; the head of the embedded list is the
back). -/
def monoidGo (dfa : Dfa) (ident : List ℕ) :
    ℕ → List (List ℕ × ℕ) → List ℕ → List (List ℕ) →
    Option (List (List ℕ × ℕ) × List ℕ)
  | 0, _, _, _ => none
  | _ + 1, map, morph, [] => some (map, morph)
  | fuel + 1, map, morph, pat :: qs =>
      match monoidByteLoop dfa ident pat map morph qs with
      | none => none
      | some st => monoidGo dfa ident fuel st.1 st.2.1 st.2.2

/-- Insertion into a list sorted by the second component (used to embed the
sort_by over map indices at the end of Monoid::construct). -/
def insByVal (x : List ℕ × ℕ) : List (List ℕ × ℕ) → List (List ℕ × ℕ)
  | [] => [x]
  | y :: ys => if x.2 ≤ y.2 then x :: y :: ys else y :: insByVal x ys

/-- Sort an association list by value (ascending). -/
def sortByVal (l : List (List ℕ × ℕ)) : List (List ℕ × ℕ) :=
  l.foldr insByVal []

/-- Monoid::construct from monoid.rs, fueled.  Returns none when the source
would panic (the char_morphism indexed assignment, or an unwrap failure while
building the multiplication table) or when the fuel is exhausted. -/
def Monoid.construct (dfa : Dfa) (fuel : ℕ) : Option Monoid :=
  let ident := TransitionPat.identity dfa.states.length
  match monoidGo dfa ident fuel [(ident, 0)] [] [ident] with
  | none => none
  | some st =>
      let map := st.1
      let morph := st.2
      let elements := (sortByVal map).map (fun kv => kv.1)
      let m := map.length
      let entry := fun (i j : ℕ) =>
        if i = 0 then some j
        else if j = 0 then some i
        else mmapLookup map (tpMultiply (elements.getD i []) (elements.getD j []))
      match (List.range m).mapM (fun i => (List.range m).mapM (fun j => entry i j)) with
      | some mt => some { multiply_table := mt, char_morphism := morph }
      | none => none

/-- Monoid::multiply from monoid.rs. -/
def Monoid.multiply (m : Monoid) (x y : ℕ) : ℕ :=
  (m.multiply_table.getD x []).getD y 0

/-- Monoid::size from monoid.rs. -/
def Monoid.size (m : Monoid) : ℕ :=
  m.multiply_table.length

/-- The inner loop of Monoid::is_aperiodic: e starts at i and is overwritten
with multiply(i, j) for each j in 0..size (the loop index j is used as an
element). -/
def aperInner (m : Monoid) (i : ℕ) : ℕ :=
  (List.range m.size).foldl (fun _e j => m.multiply i j) i

/-- Monoid::is_aperiodic from monoid.rs: return false at the first i whose
inner-loop result e fails multiply(e, i) = e, true otherwise. -/
def Monoid.is_aperiodic (m : Monoid) : Bool :=
  (List.range m.size).all (fun i => decide (m.multiply (aperInner m i) i = aperInner m i))

/-- Powers of an element by the multiplication table, with index 0 (the
identity of a constructed monoid) as the zeroth power. -/
def mpow (m : Monoid) (x : ℕ) : ℕ → ℕ
  | 0 => 0
  | n + 1 => m.multiply (mpow m x n) x

/-- Reading the transition of DFA state i on byte c. -/
def dt (dfa : Dfa) (i c : ℕ) : Option ℕ :=
  (dfa.stateF i).t.getD c none

/-- The initial distinction table of Dfa::minimize: the pair (i, j), i < j, is
marked iff the accept flags differ.  The source stores the entry of (i, j) at
distinction_table[i][len - j - 1] and uses that same indexing at every access,
so the table is embedded as a Boolean function of the ordered pair. -/
def initTable (dfa : Dfa) : ℕ → ℕ → Bool :=
  fun i j => decide ((dfa.stateF i).accept ≠ (dfa.stateF j).accept)

/-- The byte test of the fixpoint loop of Dfa::minimize: successors on c
differ and (after the swap that sorts the two optional indices, none first)
one is missing or the sorted pair of successors is already marked. -/
def markCond (dfa : Dfa) (d : ℕ → ℕ → Bool) (i j c : ℕ) : Bool :=
  let n1 := dt dfa i c
  let n2 := dt dfa j c
  if n1 = n2 then false
  else
    match n1, n2 with
    | some a, some b => if a ≤ b then d a b else d b a
    | _, _ => true

/-- Mark the pair (i, j) in the table. -/
def updT (d : ℕ → ℕ → Bool) (i j : ℕ) : ℕ → ℕ → Bool :=
  fun a b => if a = i ∧ b = j then true else d a b

/-- All ordered pairs i < j < n in the iteration order of the source loops
(i ascending, j ascending within i, i.e. for j in (i+1)..n; the source
iterates j descending only while pushing the initial rows, which stores the
same entries). -/
def pairList (n : ℕ) : List (ℕ × ℕ) :=
  (List.range n).flatMap
    (fun i => ((List.range n).filter (fun j => decide (i < j))).map (fun j => (i, j)))

/-- One pair step of a fixpoint pass: skip already marked pairs, otherwise
mark (setting the flag) when some byte satisfies markCond; the in-place table
update is visible to the later pairs of the same pass. -/
def passStep (dfa : Dfa) (st : (ℕ → ℕ → Bool) × Bool) (p : ℕ × ℕ) :
    (ℕ → ℕ → Bool) × Bool :=
  if st.1 p.1 p.2 then st
  else if (List.range 256).any (fun c => markCond dfa st.1 p.1 p.2 c) then
    (updT st.1 p.1 p.2, true)
  else st

/-- One full pass of the fixpoint loop of Dfa::minimize. -/
def passOnce (dfa : Dfa) (d : ℕ → ℕ → Bool) : (ℕ → ℕ → Bool) × Bool :=
  (pairList dfa.states.length).foldl (passStep dfa) (d, false)

/-- Number of unordered state pairs. -/
def numPairs (dfa : Dfa) : ℕ :=
  (pairList dfa.states.length).length

/-- The while distinction_flag loop, fueled: repeat passes while the flag is
set.  Fuel numPairs + 1 suffices, because each flagged pass strictly grows
the set of marked pairs. -/
def fixTable (dfa : Dfa) : ℕ → (ℕ → ℕ → Bool) → (ℕ → ℕ → Bool)
  | 0, d => d
  | fuel + 1, d =>
      let pr := passOnce dfa d
      if pr.2 then fixTable dfa fuel pr.1 else pr.1

/-- The distinction table of Dfa::minimize at its fixpoint. -/
def distTable (dfa : Dfa) : ℕ → ℕ → Bool :=
  fixTable dfa (numPairs dfa + 1) (initTable dfa)

/-- One step of the swap_map loop of Dfa::minimize: for the pair (i, j), when
j is unclaimed and (i, j) is unmarked, record swap_map[j] = i. -/
def swapStep (d : ℕ → ℕ → Bool) (m : ℕ → Option ℕ) (p : ℕ × ℕ) : ℕ → Option ℕ :=
  if (m p.2).isNone && !(d p.1 p.2) then
    fun x => if x = p.2 then some p.1 else m x
  else m

/-- The swap_map of Dfa::minimize as a function from merged state to its
merge target. -/
def swapMapF (dfa : Dfa) (d : ℕ → ℕ → Bool) : ℕ → Option ℕ :=
  (pairList dfa.states.length).foldl (swapStep d) (fun _ => none)

/-- One step of the replace_map/compaction loop: an unmerged state s receives
the next free low index (and is copied down with its id rewritten when the
index moved); a merged state receives the index of its merge target. -/
def compactStep (sm : ℕ → Option ℕ) (st : List DState × (ℕ → ℕ) × ℕ) (s : ℕ) :
    List DState × (ℕ → ℕ) × ℕ :=
  let sts := st.1
  let rm := st.2.1
  let dctr := st.2.2
  match sm s with
  | none =>
      let rm2 := fun x => if x = s then dctr else rm x
      let sts2 := if s ≠ dctr then sts.set dctr { sts.getD s default with id := dctr } else sts
      (sts2, rm2, dctr + 1)
  | some i => (sts, (fun x => if x = s then rm i else rm x), dctr)

/-- The full replace_map/compaction loop over all states (replace_map starts
as vec![0; len]). -/
def compactAll (dfa : Dfa) (sm : ℕ → Option ℕ) : List DState × (ℕ → ℕ) × ℕ :=
  (List.range dfa.states.length).foldl (compactStep sm) (dfa.states, (fun _ => 0), 0)

/-- Rewrite the present transitions of one state through replace_map (the
source loops over bytes 0..=255). -/
def remapFold (rm : ℕ → ℕ) (t0 : List (Option ℕ)) (k : ℕ) : List (Option ℕ) :=
  (List.range k).foldl
    (fun t c =>
      match t.getD c none with
      | some n => t.set c (some (rm n))
      | none => t) t0

/-- Rewrite one state's transitions: the source loops over bytes 0..=255 and
maps every present entry through replace_map. -/
def remapState (rm : ℕ → ℕ) (st : DState) : DState :=
  { st with t := remapFold rm st.t 256 }

/-- The while loop rewriting transition tables: advance from position 0 while
the id of the state at the position is below minimum_size. -/
def rewriteLoop (rm : ℕ → ℕ) (minsize : ℕ) : ℕ → ℕ → List DState → List DState
  | 0, _, sts => sts
  | fuel + 1, i, sts =>
      if (sts.getD i default).id < minsize then
        rewriteLoop rm minsize fuel (i + 1) (sts.set i (remapState rm (sts.getD i default)))
      else sts

/-- Dfa::minimize from dfa.rs: build the distinction table to its fixpoint,
collect the swap_map (returning the DFA unchanged when it is empty), compact
the states through replace_map, rewrite the surviving transition tables, and
drain the tail.  The source panics on an empty DFA (a usize underflow);
theorems assume at least one state. -/
def Dfa.minimize (dfa : Dfa) : Dfa :=
  let n := dfa.states.length
  let d := distTable dfa
  let sm := swapMapF dfa d
  if (List.range n).all (fun j => (sm j).isNone) then dfa
  else
    let minsize := n - ((List.range n).filter (fun j => (sm j).isSome)).length
    let co := compactAll dfa sm
    let sts := rewriteLoop co.2.1 minsize n 0 co.1
    { states := sts.take minsize, state_num := dfa.state_num }

/-- The NFA of the regex consisting of the single literal character a
(code 97): the parser turns that regex into a Literal node. -/
def nfaA : Nfa :=
  Nfa.re2nfa (Node.Literal 97)

/-- The DFA of the pipeline for the regex of the single literal a. -/
def dfaA : Dfa :=
  Dfa.construct nfaA

/-- A four-state NFA on which two members of one dequeued subset both carry a
transition on byte 0: state 0 has an epsilon edge to state 1 and a byte-0 edge
to state 2, state 1 has a byte-0 edge to state 3.  The start subset is the
closure of state 0, which is the two-element set containing 0 and 1. -/
def cnfa : Nfa :=
  { states :=
      [ { transition := addTarget (addTarget (List.replicate 257 none) 256 1) 0 2,
          id := 0, accept := false },
        { transition := addTarget (List.replicate 257 none) 0 3,
          id := 1, accept := false },
        { transition := List.replicate 257 none, id := 2, accept := false },
        { transition := List.replicate 257 none, id := 3, accept := true } ] }

/-- A three-element aperiodic monoid (the right-zero semigroup on two
idempotents adjoined with an identity at index 0): every element x satisfies
x * x = x, so each has x^1 = x^2. -/
def rzMonoid : Monoid :=
  { multiply_table := [[0, 1, 2], [1, 1, 2], [2, 1, 2]], char_morphism := [] }

/-- The DFA of the pipeline for the regex of the single literal a, written
out: state 0 steps to state 1 on byte 97, state 1 (the accepting state) has
no transitions. -/
def dfaAListed : Dfa :=
  { states := [ { t := (List.replicate 256 none).set 97 (some 1), id := 0, accept := false },
                { t := List.replicate 256 none, id := 1, accept := true } ],
    state_num := 2 }

/-- The canonical-form invariant of a StateSet: its list is strictly
ascending (hence duplicate free). -/
abbrev SSInv (s : StateSet) : Prop :=
  s.Pairwise (· < ·)

/-- Building a StateSet by inserting the members of a list in order (models
populating a HashSet in any given insertion order). -/
def fromList (l : List ℕ) : StateSet :=
  l.foldl (fun acc x => ssInsert x acc) []

/-- The Hash implementation for StateSet from nfa.rs: the source clones the
set into a vector, calls sort() on it — which sorts in place and returns the
unit value — and then hashes that unit value, so the bytes contributed to the
hasher are those of unit: none at all, for every set. -/
def ssHashBytes (_s : StateSet) : List ℕ :=
  []

/-- Epsilon reachability between NFA states: the reflexive-transitive closure
of membership in the epsilon successor sets. -/
inductive EpsReach (nfa : Nfa) : ℕ → ℕ → Prop where
  | refl : ∀ s, EpsReach nfa s s
  | tail : ∀ {s t u}, EpsReach nfa s t → u ∈ nfa.epsSucc t → EpsReach nfa s u

/-- Well-formedness of an NFA as built by re2nfa: every stored transition set
has targets inside the state list and is in canonical form. -/
def Nfa.Wf (nfa : Nfa) : Prop :=
  ∀ s c T, (nfa.stateF s).transition.getD c none = some T →
    (∀ x ∈ T, x < nfa.states.length) ∧ SSInv T

/-- Observable agreement of two optional walk results: both undefined, or
both defined with states carrying the same accept flag. -/
def ObsAgree (dfa : Dfa) : Option ℕ → Option ℕ → Prop
  | none, none => True
  | some a, some b => (dfa.stateF a).accept = (dfa.stateF b).accept
  | _, _ => False

/-- Behavioral indistinguishability of two DFA states: on every input the
walks from the two states agree observably (same definedness at every step
and same accept flag when defined). -/
def DfaEquiv (dfa : Dfa) (i j : ℕ) : Prop :=
  ∀ w : List ℕ, ObsAgree dfa (walk dfa i w) (walk dfa j w)

/-- Well-formedness of a DFA as built by Dfa::construct: at least one state,
sequential ids, in-range transition targets, and 256-entry tables. -/
def Dfa.Wf (dfa : Dfa) : Prop :=
  1 ≤ dfa.states.length ∧
  (∀ p, p < dfa.states.length → (dfa.stateF p).id = p) ∧
  (∀ p c q, p < dfa.states.length → dt dfa p c = some q → q < dfa.states.length) ∧
  (∀ p, p < dfa.states.length → (dfa.stateF p).t.length = 256)

/-- A DFA state is reachable when some input walks to it from state 0. -/
def Dfa.Reachable (dfa : Dfa) (s : ℕ) : Prop :=
  ∃ w, walk dfa 0 w = some s

/-- The class representative map of Dfa::minimize: the replace_map when the
swap_map is nonempty, the identity otherwise (the source returns the DFA
unchanged in that case). -/
def classOf (dfa : Dfa) (s : ℕ) : ℕ :=
  let n := dfa.states.length
  let sm := swapMapF dfa (distTable dfa)
  if (List.range n).all (fun j => (sm j).isNone) then s
  else (compactAll dfa sm).2.1 s

/-- The loop measure of the epsilon_expand worklist: the queue length plus
N + 1 for every state missing from done. -/
def expandM (N : ℕ) (queue : List ℕ) (done : StateSet) : ℕ :=
  queue.length + (N + 1) * (N - done.length)

/-- The number of marked pairs of a distinction table. -/
def countMarked (dfa : Dfa) (d : ℕ → ℕ → Bool) : ℕ :=
  (pairList dfa.states.length).countP (fun p => d p.1 p.2)

/-- Soundness of a distinction table: every marked pair is behaviorally
distinguishable. -/
def TableSound (dfa : Dfa) (d : ℕ → ℕ → Bool) : Prop :=
  ∀ i j, i < j → j < dfa.states.length → d i j = true → ¬ DfaEquiv dfa i j

/-- The unmarked relation of a table on valid states (reflexive on valid
states, and holding between distinct states whose ordered pair is
unmarked). -/
def URel (dfa : Dfa) (d : ℕ → ℕ → Bool) (i j : ℕ) : Prop :=
  i < dfa.states.length ∧ j < dfa.states.length ∧
    (i = j ∨ (i < j ∧ d i j = false) ∨ (j < i ∧ d j i = false))

/-- The class representative of a state under the swap_map: itself when
unmerged, its merge target otherwise. -/
def repOf (sm : ℕ → Option ℕ) (s : ℕ) : ℕ :=
  match sm s with
  | none => s
  | some i => i

/-- The number of unmerged states below k. -/
def cntU (sm : ℕ → Option ℕ) (k : ℕ) : ℕ :=
  ((List.range k).filter (fun s => (sm s).isNone)).length

/-- The ascending list of unmerged states (the surviving representatives). -/
def repsList (dfa : Dfa) (sm : ℕ → Option ℕ) : List ℕ :=
  (List.range dfa.states.length).filter (fun s => (sm s).isNone)

/-- Boolean well-formedness check for an NFA with concrete state lists (used
to discharge Nfa.Wf on concrete instances). -/
def nfaWfB (nfa : Nfa) : Bool :=
  nfa.states.all (fun st =>
    st.transition.all (fun o =>
      match o with
      | none => true
      | some T => T.all (fun x => decide (x < nfa.states.length)) && decide (SSInv T)))

/-- Boolean well-formedness check for a DFA with concrete state lists (used
to discharge Dfa.Wf on concrete instances). -/
def dfaWfB (dfa : Dfa) : Bool :=
  decide (1 ≤ dfa.states.length) &&
  (List.range dfa.states.length).all (fun p =>
    decide ((dfa.stateF p).id = p) &&
    decide ((dfa.stateF p).t.length = 256) &&
    (dfa.stateF p).t.all (fun o =>
      match o with
      | none => true
      | some q => decide (q < dfa.states.length)))

/-- The compaction fold cut off after the first k states (compactAll is this
fold at k equal to the number of states). -/
def cfold (dfa : Dfa) (sm : ℕ → Option ℕ) (k : ℕ) : List DState × (ℕ → ℕ) × ℕ :=
  (List.range k).foldl (compactStep sm) (dfa.states, (fun _ => 0), 0)

end Re

namespace Re

section StateSetLemmas

theorem mem_ssInsert {a x : ℕ} : ∀ {s : StateSet}, a ∈ ssInsert x s ↔ a = x ∨ a ∈ s := by
  intro s
  induction s with
  | nil => simp [ssInsert]
  | cons y ys ih =>
      by_cases h1 : x < y
      · simp only [ssInsert, if_pos h1, List.mem_cons]
        try tauto
      · by_cases h2 : x = y
        · subst h2
          simp only [ssInsert, if_neg h1, if_pos trivial, List.mem_cons]
          try tauto
        · simp only [ssInsert, if_neg h1, if_neg h2, List.mem_cons, ih]
          try tauto

theorem ssInsert_inv {x : ℕ} : ∀ {s : StateSet}, SSInv s → SSInv (ssInsert x s) := by
  intro s
  induction s with
  | nil => intro _; simp [ssInsert, SSInv]
  | cons y ys ih =>
      intro h
      rw [SSInv, List.pairwise_cons] at h
      obtain ⟨hy, hys⟩ := h
      by_cases h1 : x < y
      · simp only [ssInsert, if_pos h1]
        rw [SSInv, List.pairwise_cons]
        refine ⟨?_, List.pairwise_cons.mpr ⟨hy, hys⟩⟩
        intro b hb
        rcases List.mem_cons.mp hb with hb | hb
        · omega
        · exact lt_trans h1 (hy b hb)
      · by_cases h2 : x = y
        · simp only [ssInsert, if_neg h1, if_pos h2]
          exact List.pairwise_cons.mpr ⟨hy, hys⟩
        · simp only [ssInsert, if_neg h1, if_neg h2]
          rw [SSInv, List.pairwise_cons]
          refine ⟨?_, ih hys⟩
          intro b hb
          rcases mem_ssInsert.mp hb with hb | hb
          · omega
          · exact hy b hb

theorem ssInsert_of_mem {x : ℕ} : ∀ {s : StateSet}, SSInv s → x ∈ s → ssInsert x s = s := by
  intro s
  induction s with
  | nil => intro _ h; cases h
  | cons y ys ih =>
      intro hinv hmem
      rw [SSInv, List.pairwise_cons] at hinv
      obtain ⟨hy, hys⟩ := hinv
      rcases List.mem_cons.mp hmem with h | h
      · subst h
        simp [ssInsert]
      · have hyx : y < x := hy x h
        simp only [ssInsert]
        rw [if_neg (by omega), if_neg (by omega), ih hys h]

theorem length_ssInsert_of_not_mem {x : ℕ} :
    ∀ {s : StateSet}, x ∉ s → (ssInsert x s).length = s.length + 1 := by
  intro s
  induction s with
  | nil => intro _; simp [ssInsert]
  | cons y ys ih =>
      intro h
      have hxy : x ≠ y := by
        intro hc; exact h (hc ▸ List.mem_cons_self y ys)
      have hxs : x ∉ ys := fun hc => h (List.mem_cons_of_mem y hc)
      by_cases h1 : x < y
      · simp [ssInsert, if_pos h1]
      · simp only [ssInsert, if_neg h1, if_neg hxy]
        simp [ih hxs]

theorem mem_foldl_ssInsert {a : ℕ} :
    ∀ (t : List ℕ) (acc : StateSet),
      a ∈ t.foldl (fun acc x => ssInsert x acc) acc ↔ a ∈ acc ∨ a ∈ t := by
  intro t
  induction t with
  | nil => intro acc; simp
  | cons y ys ih =>
      intro acc
      simp only [List.foldl_cons, ih, mem_ssInsert, List.mem_cons]
      tauto

theorem inv_foldl_ssInsert :
    ∀ (t : List ℕ) (acc : StateSet), SSInv acc →
      SSInv (t.foldl (fun acc x => ssInsert x acc) acc) := by
  intro t
  induction t with
  | nil => intro acc h; exact h
  | cons y ys ih => intro acc h; exact ih _ (ssInsert_inv h)

theorem mem_ssUnion {a : ℕ} {s t : StateSet} : a ∈ ssUnion s t ↔ a ∈ s ∨ a ∈ t :=
  mem_foldl_ssInsert t s

theorem ssUnion_inv {s t : StateSet} (h : SSInv s) : SSInv (ssUnion s t) :=
  inv_foldl_ssInsert t s h

theorem mem_fromList {a : ℕ} {l : List ℕ} : a ∈ fromList l ↔ a ∈ l := by
  rw [fromList, mem_foldl_ssInsert]
  simp

theorem fromList_inv {l : List ℕ} : SSInv (fromList l) :=
  inv_foldl_ssInsert l [] (by simp [SSInv])

theorem ssEq_of_mem_iff : ∀ {s t : StateSet}, SSInv s → SSInv t →
    (∀ a, a ∈ s ↔ a ∈ t) → s = t := by
  intro s
  induction s with
  | nil =>
      intro t _ _ h
      rcases t with _ | ⟨y, ys⟩
      · rfl
      · exact absurd ((h y).mpr (List.mem_cons_self y ys)) (List.not_mem_nil y)
  | cons x xs ih =>
      intro t hs ht h
      rcases t with _ | ⟨y, ys⟩
      · exact absurd ((h x).mp (List.mem_cons_self x xs)) (List.not_mem_nil x)
      · rw [SSInv, List.pairwise_cons] at hs ht
        obtain ⟨hx, hxs⟩ := hs
        obtain ⟨hy, hys⟩ := ht
        have hxy : x = y := by
          have h1 := (h x).mp (List.mem_cons_self x xs)
          have h2 := (h y).mpr (List.mem_cons_self y ys)
          rcases List.mem_cons.mp h1 with h1 | h1
          · exact h1
          · rcases List.mem_cons.mp h2 with h2 | h2
            · exact h2.symm
            · have := hx y h2
              have := hy x h1
              omega
        subst hxy
        have htails : ∀ a, a ∈ xs ↔ a ∈ ys := by
          intro a
          constructor
          · intro ha
            have hlt := hx a ha
            have := (h a).mp (List.mem_cons_of_mem x ha)
            rcases List.mem_cons.mp this with h2 | h2
            · omega
            · exact h2
          · intro ha
            have hlt := hy a ha
            have := (h a).mpr (List.mem_cons_of_mem x ha)
            rcases List.mem_cons.mp this with h2 | h2
            · omega
            · exact h2
        rw [ih hxs hys htails]

theorem ssInv_nodup {s : StateSet} (h : SSInv s) : s.Nodup :=
  List.Pairwise.imp (fun hlt => Nat.ne_of_lt hlt) h

theorem ssInv_length_le {s : StateSet} {N : ℕ} (h : SSInv s)
    (hb : ∀ x ∈ s, x < N) : s.length ≤ N := by
  have hnd := ssInv_nodup h
  have hsub : s.toFinset ⊆ Finset.range N := by
    intro a ha
    rw [Finset.mem_range]
    exact hb a (List.mem_toFinset.mp ha)
  have := Finset.card_le_card hsub
  rw [Finset.card_range] at this
  rwa [List.toFinset_card_of_nodup hnd] at this

end StateSetLemmas

section EpsilonExpand

theorem epsSucc_high {nfa : Nfa} {s : ℕ} (h : nfa.states.length ≤ s) :
    nfa.epsSucc s = [] := by
  unfold Nfa.epsSucc Nfa.stateF
  rw [List.getD_eq_default _ _ h]
  rfl

theorem epsSucc_spec {nfa : Nfa} (hwf : nfa.Wf) (s : ℕ) :
    (∀ x ∈ nfa.epsSucc s, x < nfa.states.length) ∧ SSInv (nfa.epsSucc s) := by
  unfold Nfa.epsSucc
  cases h : (nfa.stateF s).transition.getD 256 none with
  | none => simp
  | some T => exact hwf s 256 T h

theorem EpsReach.trans {nfa : Nfa} {a b c : ℕ}
    (h1 : EpsReach nfa a b) (h2 : EpsReach nfa b c) : EpsReach nfa a c := by
  induction h2 with
  | refl => exact h1
  | tail _ hmem ih => exact EpsReach.tail ih hmem

theorem epsReach_mem_closed {nfa : Nfa} {R : StateSet}
    (hcl : ∀ x ∈ R, ∀ u ∈ nfa.epsSucc x, u ∈ R) {s t : ℕ}
    (h : EpsReach nfa s t) (hs : s ∈ R) : t ∈ R := by
  induction h with
  | refl => exact hs
  | tail _ hmem ih => exact hcl _ ih _ hmem

theorem epsReach_lt {nfa : Nfa} (hwf : nfa.Wf) {s t : ℕ}
    (hs : s < nfa.states.length) (h : EpsReach nfa s t) : t < nfa.states.length := by
  induction h with
  | refl => exact hs
  | tail _ hmem ih => exact (epsSucc_spec hwf _).1 _ hmem

theorem expandGo_ssinv {nfa : Nfa} :
    ∀ (fuel : ℕ) (queue : List ℕ) (done : StateSet), SSInv done →
      SSInv (expandGo nfa fuel queue done) := by
  intro fuel
  induction fuel with
  | zero => intro queue done h; exact h
  | succ fuel ih =>
      intro queue done h
      match queue with
      | [] => exact h
      | s :: qs => exact ih _ _ (ssInsert_inv h)

theorem expandGo_spec {nfa : Nfa} (hwf : nfa.Wf) :
    ∀ (fuel : ℕ) (queue : List ℕ) (done : StateSet),
      (∀ x ∈ queue, x < nfa.states.length) →
      (∀ x ∈ done, x < nfa.states.length) →
      SSInv done →
      (∀ pre x post, queue = pre ++ x :: post → x ∈ done →
        ∀ u ∈ nfa.epsSucc x, u ∈ done ∨ u ∈ pre) →
      expandM nfa.states.length queue done < fuel →
      (∀ x ∈ done, x ∈ expandGo nfa fuel queue done) ∧
      (∀ x ∈ queue, x ∈ expandGo nfa fuel queue done) ∧
      (∀ x ∈ expandGo nfa fuel queue done,
        x ∈ done ∨ ∃ q ∈ queue, EpsReach nfa q x) ∧
      ((∀ x ∈ done, ∀ u ∈ nfa.epsSucc x, u ∈ done ∨ u ∈ queue) →
        ∀ x ∈ expandGo nfa fuel queue done, ∀ u ∈ nfa.epsSucc x,
          u ∈ expandGo nfa fuel queue done) ∧
      (∀ x ∈ expandGo nfa fuel queue done, x < nfa.states.length) := by
  intro fuel
  induction fuel with
  | zero =>
      intro queue done _ _ _ _ hm
      exact absurd hm (Nat.not_lt_zero _)
  | succ fuel ih =>
      intro queue done hqv hdv hdi hstk hm
      match queue with
      | [] =>
          refine ⟨fun x hx => hx, fun x hx => absurd hx (List.not_mem_nil x),
            fun x hx => Or.inl hx, ?_, hdv⟩
          intro H x hx u hu
          rcases H x hx u hu with h | h
          · exact h
          · exact absurd h (List.not_mem_nil u)
      | s :: qs =>
          have hunf : expandGo nfa (fuel + 1) (s :: qs) done =
              expandGo nfa fuel
                (((nfa.epsSucc s).filter (fun t => decide (t ∉ ssInsert s done))).reverse ++ qs)
                (ssInsert s done) := rfl
          by_cases hs : s ∈ done
          · -- a duplicate pop: done is unchanged and nothing is pushed
            have hD2 : ssInsert s done = done := ssInsert_of_mem hdi hs
            have hP : (nfa.epsSucc s).filter (fun t => decide (t ∉ ssInsert s done)) = [] := by
              rw [List.filter_eq_nil_iff]
              intro u hu
              rcases hstk [] s qs rfl hs u hu with h | h
              · simp [hD2, h]
              · exact absurd h (List.not_mem_nil u)
            rw [hunf, hP, hD2]
            simp only [List.reverse_nil, List.nil_append]
            have hm2 : expandM nfa.states.length qs done < fuel := by
              simp only [expandM, List.length_cons] at hm ⊢
              omega
            have hstk2 : ∀ pre x post, qs = pre ++ x :: post → x ∈ done →
                ∀ u ∈ nfa.epsSucc x, u ∈ done ∨ u ∈ pre := by
              intro pre x post heq hx u hu
              have : s :: qs = (s :: pre) ++ x :: post := by rw [heq]; rfl
              rcases hstk (s :: pre) x post this hx u hu with h | h
              · exact Or.inl h
              · rcases List.mem_cons.mp h with h | h
                · exact Or.inl (h ▸ hs)
                · exact Or.inr h
            obtain ⟨c1, c2, c3, c4, c6⟩ :=
              ih qs done (fun x hx => hqv x (List.mem_cons_of_mem s hx)) hdv hdi hstk2 hm2
            refine ⟨c1, ?_, ?_, ?_, c6⟩
            · intro x hx
              rcases List.mem_cons.mp hx with h | h
              · exact c1 x (h ▸ hs)
              · exact c2 x h
            · intro x hx
              rcases c3 x hx with h | ⟨q, hq, hr⟩
              · exact Or.inl h
              · exact Or.inr ⟨q, List.mem_cons_of_mem s hq, hr⟩
            · intro H
              refine c4 ?_
              intro x hx u hu
              rcases H x hx u hu with h | h
              · exact Or.inl h
              · rcases List.mem_cons.mp h with h | h
                · exact Or.inl (h ▸ hs)
                · exact Or.inr h
          · -- a fresh pop: s enters done and its unseen successors are pushed
            have hsN : s < nfa.states.length := hqv s (List.mem_cons_self s qs)
            have hD2v : ∀ x ∈ ssInsert s done, x < nfa.states.length := by
              intro x hx
              rcases mem_ssInsert.mp hx with h | h
              · exact h ▸ hsN
              · exact hdv x h
            have hD2i : SSInv (ssInsert s done) := ssInsert_inv hdi
            have hD2len : (ssInsert s done).length = done.length + 1 :=
              length_ssInsert_of_not_mem hs
            have hD2bound : (ssInsert s done).length ≤ nfa.states.length :=
              ssInv_length_le hD2i hD2v
            have hPv : ∀ x ∈ (nfa.epsSucc s).filter (fun t => decide (t ∉ ssInsert s done)),
                x < nfa.states.length := by
              intro x hx
              exact (epsSucc_spec hwf s).1 x (List.mem_of_mem_filter hx)
            have hPi : SSInv ((nfa.epsSucc s).filter (fun t => decide (t ∉ ssInsert s done))) :=
              List.Pairwise.filter _ (epsSucc_spec hwf s).2
            have hPlen : ((nfa.epsSucc s).filter
                (fun t => decide (t ∉ ssInsert s done))).length ≤ nfa.states.length :=
              ssInv_length_le hPi hPv
            have hqv2 : ∀ x ∈ ((nfa.epsSucc s).filter
                (fun t => decide (t ∉ ssInsert s done))).reverse ++ qs,
                x < nfa.states.length := by
              intro x hx
              rcases List.mem_append.mp hx with h | h
              · exact hPv x (List.mem_reverse.mp h)
              · exact hqv x (List.mem_cons_of_mem s h)
            have hm2 : expandM nfa.states.length
                (((nfa.epsSucc s).filter (fun t => decide (t ∉ ssInsert s done))).reverse ++ qs)
                (ssInsert s done) < fuel := by
              have hdb : done.length + 1 ≤ nfa.states.length := by
                rw [← hD2len]; exact hD2bound
              have hexp : (nfa.states.length + 1) * (nfa.states.length - done.length) =
                  (nfa.states.length + 1) * (nfa.states.length - (done.length + 1)) +
                    (nfa.states.length + 1) := by
                rw [← Nat.mul_succ]
                congr 1
                omega
              simp only [expandM, List.length_append, List.length_reverse,
                List.length_cons, hD2len] at hm ⊢
              omega
            have hstk2 : ∀ pre x post,
                ((nfa.epsSucc s).filter (fun t => decide (t ∉ ssInsert s done))).reverse ++ qs =
                  pre ++ x :: post →
                x ∈ ssInsert s done →
                ∀ u ∈ nfa.epsSucc x, u ∈ ssInsert s done ∨ u ∈ pre := by
              intro pre x post heq hx u hu
              rcases List.append_eq_append_iff.mp heq with ⟨a2, ha1, ha2⟩ | ⟨c2, hc1, hc2⟩
              · -- x sits inside qs, below the whole pushed block
                rcases mem_ssInsert.mp hx with hxe | hxd
                · subst hxe
                  by_cases hu2 : u ∈ ssInsert x done
                  · exact Or.inl hu2
                  · refine Or.inr ?_
                    rw [ha1]
                    refine List.mem_append.mpr (Or.inl (List.mem_reverse.mpr ?_))
                    exact List.mem_filter.mpr ⟨hu, by simpa using hu2⟩
                · have hq2 : s :: qs = (s :: a2) ++ x :: post := by rw [ha2]; rfl
                  rcases hstk (s :: a2) x post hq2 hxd u hu with h | h
                  · exact Or.inl (mem_ssInsert.mpr (Or.inr h))
                  · rcases List.mem_cons.mp h with h | h
                    · exact Or.inl (mem_ssInsert.mpr (Or.inl h))
                    · exact Or.inr (by rw [ha1]; exact List.mem_append.mpr (Or.inr h))
              · cases c2 with
                | nil =>
                    -- the pushed block is exactly pre, and x is the head of qs
                    have hqs : qs = x :: post := by simpa using hc2.symm
                    have hpre : pre = ((nfa.epsSucc s).filter
                        (fun t => decide (t ∉ ssInsert s done))).reverse := by
                      simpa using hc1.symm
                    rcases mem_ssInsert.mp hx with hxe | hxd
                    · subst hxe
                      by_cases hu2 : u ∈ ssInsert x done
                      · exact Or.inl hu2
                      · refine Or.inr ?_
                        rw [hpre]
                        exact List.mem_reverse.mpr
                          (List.mem_filter.mpr ⟨hu, by simpa using hu2⟩)
                    · have hq2 : s :: qs = [s] ++ x :: post := by rw [hqs]; rfl
                      rcases hstk [s] x post hq2 hxd u hu with h | h
                      · exact Or.inl (mem_ssInsert.mpr (Or.inr h))
                      · rcases List.mem_cons.mp h with h | h
                        · exact Or.inl (mem_ssInsert.mpr (Or.inl h))
                        · exact absurd h (List.not_mem_nil u)
                | cons c0 ct =>
                    -- x heads the pushed block, hence is not in done2: vacuous
                    rw [List.cons_append] at hc2
                    have hx0 : x = c0 := (List.cons.injEq x post c0 (ct ++ qs)).mp hc2 |>.1
                    have hxP : x ∈ (nfa.epsSucc s).filter
                        (fun t => decide (t ∉ ssInsert s done)) := by
                      refine List.mem_reverse.mp ?_
                      rw [hc1]
                      exact List.mem_append.mpr (Or.inr (hx0 ▸ List.mem_cons_self c0 ct))
                    exact absurd hx (by simpa using List.of_mem_filter hxP)
            obtain ⟨c1, c2, c3, c4, c6⟩ :=
              ih (((nfa.epsSucc s).filter (fun t => decide (t ∉ ssInsert s done))).reverse ++ qs)
                (ssInsert s done) hqv2 hD2v hD2i hstk2 hm2
            rw [hunf]
            refine ⟨?_, ?_, ?_, ?_, c6⟩
            · intro x hx
              exact c1 x (mem_ssInsert.mpr (Or.inr hx))
            · intro x hx
              rcases List.mem_cons.mp hx with h | h
              · exact c1 x (mem_ssInsert.mpr (Or.inl h))
              · exact c2 x (List.mem_append.mpr (Or.inr h))
            · intro x hx
              rcases c3 x hx with h | ⟨q, hq, hr⟩
              · rcases mem_ssInsert.mp h with h | h
                · exact Or.inr ⟨s, List.mem_cons_self s qs, by rw [h]; exact EpsReach.refl s⟩
                · exact Or.inl h
              · rcases List.mem_append.mp hq with h | h
                · -- q was pushed from s: prepend the epsilon step
                  have hqe : q ∈ nfa.epsSucc s :=
                    List.mem_of_mem_filter (List.mem_reverse.mp h)
                  exact Or.inr ⟨s, List.mem_cons_self s qs,
                    EpsReach.trans (EpsReach.tail (EpsReach.refl s) hqe) hr⟩
                · exact Or.inr ⟨q, List.mem_cons_of_mem s h, hr⟩
            · intro H
              refine c4 ?_
              intro x hx u hu
              rcases mem_ssInsert.mp hx with hxe | hxd
              · subst hxe
                by_cases hu2 : u ∈ ssInsert x done
                · exact Or.inl hu2
                · refine Or.inr (List.mem_append.mpr (Or.inl (List.mem_reverse.mpr ?_)))
                  exact List.mem_filter.mpr ⟨hu, by simpa using hu2⟩
              · rcases H x hxd u hu with h | h
                · exact Or.inl (mem_ssInsert.mpr (Or.inr h))
                · rcases List.mem_cons.mp h with h | h
                  · exact Or.inl (mem_ssInsert.mpr (Or.inl h))
                  · exact Or.inr (List.mem_append.mpr (Or.inr h))

theorem epsilon_expand_mem {nfa : Nfa} (hwf : nfa.Wf) {S : StateSet}
    (hS : ∀ x ∈ S, x < nfa.states.length) {t : ℕ} :
    t ∈ nfa.epsilon_expand S ↔ ∃ s ∈ S, EpsReach nfa s t := by
  have hm : expandM nfa.states.length S.reverse [] < expandFuel nfa S := by
    have hsq : (nfa.states.length + 1) * (nfa.states.length + 1) =
        (nfa.states.length + 1) * nfa.states.length + (nfa.states.length + 1) :=
      Nat.mul_succ _ _
    simp only [expandM, expandFuel, List.length_reverse, List.length_nil, Nat.sub_zero]
    omega
  obtain ⟨c1, c2, c3, c4, c6⟩ := expandGo_spec hwf (expandFuel nfa S) S.reverse []
    (fun x hx => hS x (List.mem_reverse.mp hx))
    (fun x hx => absurd hx (List.not_mem_nil x))
    (by simp)
    (fun pre x post _ hx => absurd hx (List.not_mem_nil x))
    hm
  constructor
  · intro ht
    rcases c3 t ht with h | ⟨q, hq, hr⟩
    · exact absurd h (List.not_mem_nil t)
    · exact ⟨q, List.mem_reverse.mp hq, hr⟩
  · rintro ⟨s, hsS, hr⟩
    have hcl := c4 (fun x hx => absurd hx (List.not_mem_nil x))
    exact epsReach_mem_closed hcl hr (c2 s (List.mem_reverse.mpr hsS))

theorem epsilon_expand_ssinv {nfa : Nfa} {S : StateSet} :
    SSInv (nfa.epsilon_expand S) :=
  expandGo_ssinv _ _ _ (by simp)

theorem epsilon_expand_valid {nfa : Nfa} (hwf : nfa.Wf) {S : StateSet}
    (hS : ∀ x ∈ S, x < nfa.states.length) :
    ∀ x ∈ nfa.epsilon_expand S, x < nfa.states.length := by
  intro x hx
  obtain ⟨s, hs, hr⟩ := (epsilon_expand_mem hwf hS).mp hx
  exact epsReach_lt hwf (hS s hs) hr

theorem epsilon_expand_extensive {nfa : Nfa} (hwf : nfa.Wf) {S : StateSet}
    (hS : ∀ x ∈ S, x < nfa.states.length) :
    ∀ x ∈ S, x ∈ nfa.epsilon_expand S := by
  intro x hx
  exact (epsilon_expand_mem hwf hS).mpr ⟨x, hx, EpsReach.refl x⟩

theorem epsilon_expand_monotone {nfa : Nfa} (hwf : nfa.Wf) {S T : StateSet}
    (hS : ∀ x ∈ S, x < nfa.states.length) (hT : ∀ x ∈ T, x < nfa.states.length)
    (hsub : ∀ x ∈ S, x ∈ T) :
    ∀ x ∈ nfa.epsilon_expand S, x ∈ nfa.epsilon_expand T := by
  intro x hx
  obtain ⟨s, hs, hr⟩ := (epsilon_expand_mem hwf hS).mp hx
  exact (epsilon_expand_mem hwf hT).mpr ⟨s, hsub s hs, hr⟩

theorem epsilon_expand_idem {nfa : Nfa} (hwf : nfa.Wf) {S : StateSet}
    (hS : ∀ x ∈ S, x < nfa.states.length) :
    nfa.epsilon_expand (nfa.epsilon_expand S) = nfa.epsilon_expand S := by
  have hSv := epsilon_expand_valid hwf hS
  refine ssEq_of_mem_iff epsilon_expand_ssinv epsilon_expand_ssinv ?_
  intro a
  rw [epsilon_expand_mem hwf hSv, epsilon_expand_mem hwf hS]
  constructor
  · rintro ⟨s, hs, hr⟩
    obtain ⟨u, hu, hur⟩ := (epsilon_expand_mem hwf hS).mp hs
    exact ⟨u, hu, EpsReach.trans hur hr⟩
  · rintro ⟨s, hs, hr⟩
    exact ⟨s, epsilon_expand_extensive hwf hS s hs, hr⟩

end EpsilonExpand

section WfBridges

theorem getD_some_mem {α : Type} {l : List (Option α)} {i : ℕ} {T : α}
    (h : l.getD i none = some T) : some T ∈ l := by
  by_cases hi : i < l.length
  · rw [List.getD_eq_getElem l none hi] at h
    exact h ▸ List.getElem_mem hi
  · rw [List.getD_eq_default l none (le_of_not_lt hi)] at h
    cases h

theorem stateF_mem {nfa : Nfa} {s : ℕ} (hs : s < nfa.states.length) :
    nfa.stateF s ∈ nfa.states := by
  unfold Nfa.stateF
  rw [List.getD_eq_getElem nfa.states default hs]
  exact List.getElem_mem hs

theorem nfaWf_of_b {nfa : Nfa} (h : nfaWfB nfa = true) : nfa.Wf := by
  intro s c T hT
  by_cases hs : s < nfa.states.length
  · have hall := List.all_eq_true.mp h _ (stateF_mem hs)
    have hTmem : some T ∈ (nfa.stateF s).transition := getD_some_mem hT
    have hent := List.all_eq_true.mp hall _ hTmem
    simp only [Bool.and_eq_true, List.all_eq_true, decide_eq_true_eq] at hent
    exact ⟨fun x hx => hent.1 x hx, hent.2⟩
  · exfalso
    have hdefault : nfa.stateF s = default := by
      unfold Nfa.stateF
      exact List.getD_eq_default nfa.states default (le_of_not_lt hs)
    rw [hdefault] at hT
    have htr : (default : NState).transition = [] := rfl
    rw [htr] at hT
    simp at hT

theorem dstateF_mem {dfa : Dfa} {p : ℕ} (hp : p < dfa.states.length) :
    dfa.stateF p ∈ dfa.states := by
  unfold Dfa.stateF
  rw [List.getD_eq_getElem dfa.states default hp]
  exact List.getElem_mem hp

theorem dfaWf_of_b {dfa : Dfa} (h : dfaWfB dfa = true) : dfa.Wf := by
  rw [dfaWfB, Bool.and_eq_true] at h
  obtain ⟨h1, h2⟩ := h
  have h2 := List.all_eq_true.mp h2
  refine ⟨by simpa using h1, ?_, ?_, ?_⟩
  · intro p hp
    have := h2 p (List.mem_range.mpr hp)
    simp only [Bool.and_eq_true, decide_eq_true_eq] at this
    exact this.1.1
  · intro p c q hp hq
    have := h2 p (List.mem_range.mpr hp)
    simp only [Bool.and_eq_true, List.all_eq_true, decide_eq_true_eq] at this
    have hmem : some q ∈ (dfa.stateF p).t := getD_some_mem hq
    simpa using this.2 _ hmem
  · intro p hp
    have := h2 p (List.mem_range.mpr hp)
    simp only [Bool.and_eq_true, decide_eq_true_eq] at this
    exact this.1.2

end WfBridges

section Re2NfaInvariants

/-- The invariant of the NFA builder used by the final-state claim: ids are
sequential and no accept flag is set. -/
def GoodInv (nfa : Nfa) : Prop :=
  (∀ i, i < nfa.states.length → (nfa.stateF i).id = i) ∧
  (∀ i, (nfa.stateF i).accept = false)

theorem insert_transition_id {st : NState} {l : Label} {t : ℕ} :
    (st.insert_transition l t).id = st.id := by
  cases l <;> simp [NState.insert_transition]

theorem insert_transition_accept {st : NState} {l : Label} {t : ℕ} :
    (st.insert_transition l t).accept = st.accept := by
  cases l <;> simp [NState.insert_transition]

theorem add_state_length {nfa : Nfa} :
    nfa.add_state.states.length = nfa.states.length + 1 := by
  simp [Nfa.add_state]

theorem add_state_states {nfa : Nfa} :
    nfa.add_state.states = nfa.states ++
      [{ transition := List.replicate 257 none, id := nfa.states.length, accept := false }] :=
  rfl

theorem stateF_add_state {nfa : Nfa} {i : ℕ} :
    nfa.add_state.stateF i =
      if i < nfa.states.length then nfa.stateF i
      else if i = nfa.states.length then
        { transition := List.replicate 257 none, id := nfa.states.length, accept := false }
      else default := by
  have hl : (nfa.states ++
      [({ transition := List.replicate 257 none, id := nfa.states.length,
          accept := false } : NState)]).length = nfa.states.length + 1 := by
    rw [List.length_append]
    rfl
  show nfa.add_state.states.getD i default = _
  rw [add_state_states]
  by_cases h1 : i < nfa.states.length
  · rw [if_pos h1, List.getD_eq_getElem _ _ (by omega), List.getElem_append_left h1]
    unfold Nfa.stateF
    rw [List.getD_eq_getElem _ _ h1]
  · rw [if_neg h1]
    by_cases h2 : i = nfa.states.length
    · subst h2
      rw [if_pos rfl, List.getD_eq_getElem _ _ (by omega)]
      rw [List.getElem_append_right (le_refl _)]
      simp
    · rw [if_neg h2, List.getD_eq_default _ _ (by omega)]

theorem insertAt_length {nfa : Nfa} {i : ℕ} {l : Label} {t : ℕ} :
    (nfa.insertAt i l t).states.length = nfa.states.length := by
  simp [Nfa.insertAt]

theorem insertAt_states {nfa : Nfa} {i : ℕ} {l : Label} {t : ℕ} :
    (nfa.insertAt i l t).states =
      nfa.states.set i ((nfa.stateF i).insert_transition l t) :=
  rfl

theorem stateF_insertAt {nfa : Nfa} {i j : ℕ} {l : Label} {t : ℕ} :
    (nfa.insertAt i l t).stateF j =
      if j = i ∧ i < nfa.states.length then (nfa.stateF i).insert_transition l t
      else nfa.stateF j := by
  have hl : (nfa.states.set i ((nfa.stateF i).insert_transition l t)).length
      = nfa.states.length := by simp
  show (nfa.insertAt i l t).states.getD j default = _
  rw [insertAt_states]
  by_cases h1 : j = i ∧ i < nfa.states.length
  · obtain ⟨rfl, h2⟩ := h1
    rw [if_pos ⟨rfl, h2⟩, List.getD_eq_getElem _ _ (by omega)]
    exact List.getElem_set_self _
  · rw [if_neg h1]
    by_cases h2 : j < nfa.states.length
    · have hne : i ≠ j := by
        intro hc
        exact h1 ⟨hc.symm, hc ▸ h2⟩
      rw [List.getD_eq_getElem _ _ (by omega), List.getElem_set_ne hne]
      unfold Nfa.stateF
      rw [List.getD_eq_getElem _ _ h2]
    · rw [List.getD_eq_default _ _ (by omega)]
      unfold Nfa.stateF
      rw [List.getD_eq_default _ _ (by omega)]

theorem goodInv_add_state {nfa : Nfa} (h : GoodInv nfa) : GoodInv nfa.add_state := by
  obtain ⟨hid, hacc⟩ := h
  constructor
  · intro i hi
    rw [stateF_add_state]
    rw [add_state_length] at hi
    by_cases h1 : i < nfa.states.length
    · rw [if_pos h1]; exact hid i h1
    · rw [if_neg h1, if_pos (by omega)]
      simp; omega
  · intro i
    rw [stateF_add_state]
    by_cases h1 : i < nfa.states.length
    · rw [if_pos h1]; exact hacc i
    · rw [if_neg h1]
      by_cases h2 : i = nfa.states.length
      · rw [if_pos h2]
      · rw [if_neg h2]; rfl

theorem goodInv_insertAt {nfa : Nfa} {i : ℕ} {l : Label} {t : ℕ}
    (h : GoodInv nfa) : GoodInv (nfa.insertAt i l t) := by
  obtain ⟨hid, hacc⟩ := h
  constructor
  · intro j hj
    rw [insertAt_length] at hj
    rw [stateF_insertAt]
    by_cases h1 : j = i ∧ i < nfa.states.length
    · rw [if_pos h1, insert_transition_id]
      exact h1.1 ▸ hid i h1.2
    · rw [if_neg h1]; exact hid j hj
  · intro j
    rw [stateF_insertAt]
    by_cases h1 : j = i ∧ i < nfa.states.length
    · rw [if_pos h1, insert_transition_accept]; exact hacc i
    · rw [if_neg h1]; exact hacc j

theorem goodInv_constructNode {node : Node} :
    ∀ {nfa : Nfa}, GoodInv nfa → GoodInv (nfa.constructNode node) := by
  induction node with
  | Literal v =>
      intro nfa h
      exact goodInv_insertAt (goodInv_add_state h)
  | Dot =>
      intro nfa h
      exact goodInv_insertAt (goodInv_add_state h)
  | OpConcat lhs rhs ihl ihr =>
      intro nfa h
      exact ihr (ihl h)
  | OpUnion lhs rhs ihl ihr =>
      intro nfa h
      exact goodInv_insertAt (ihr (goodInv_insertAt (goodInv_add_state
        (ihl (goodInv_insertAt (goodInv_add_state h))))))
  | OpStar lhs ih =>
      intro nfa h
      exact goodInv_insertAt (goodInv_insertAt (goodInv_add_state
        (ih (goodInv_insertAt (goodInv_add_state h)))))

theorem len_constructNode_ge {node : Node} :
    ∀ {nfa : Nfa}, nfa.states.length ≤ (nfa.constructNode node).states.length := by
  induction node with
  | Literal v =>
      intro nfa
      simp only [Nfa.constructNode]
      rw [insertAt_length, add_state_length]
      omega
  | Dot =>
      intro nfa
      simp only [Nfa.constructNode]
      rw [insertAt_length, add_state_length]
      omega
  | OpConcat lhs rhs ihl ihr =>
      intro nfa
      exact le_trans ihl ihr
  | OpUnion lhs rhs ihl ihr =>
      intro nfa
      simp only [Nfa.constructNode]
      rw [insertAt_length]
      refine le_trans ?_ ihr
      rw [insertAt_length, add_state_length]
      refine le_trans ?_ (Nat.le_succ_of_le ihl)
      rw [insertAt_length, add_state_length]
      omega
  | OpStar lhs ih =>
      intro nfa
      simp only [Nfa.constructNode]
      rw [insertAt_length, insertAt_length, add_state_length]
      refine le_trans ?_ (Nat.le_succ_of_le ih)
      rw [insertAt_length, add_state_length]
      omega

theorem setAccept_length {nfa : Nfa} {i : ℕ} :
    (nfa.setAccept i).states.length = nfa.states.length := by
  simp [Nfa.setAccept]

theorem setAccept_states {nfa : Nfa} {i : ℕ} :
    (nfa.setAccept i).states = nfa.states.set i { nfa.stateF i with accept := true } :=
  rfl

theorem stateF_setAccept {nfa : Nfa} {i j : ℕ} :
    (nfa.setAccept i).stateF j =
      if j = i ∧ i < nfa.states.length then { nfa.stateF i with accept := true }
      else nfa.stateF j := by
  have hl : (nfa.states.set i { nfa.stateF i with accept := true }).length
      = nfa.states.length := by simp
  show (nfa.setAccept i).states.getD j default = _
  rw [setAccept_states]
  by_cases h1 : j = i ∧ i < nfa.states.length
  · obtain ⟨rfl, h2⟩ := h1
    rw [if_pos ⟨rfl, h2⟩, List.getD_eq_getElem _ _ (by omega)]
    exact List.getElem_set_self _
  · rw [if_neg h1]
    by_cases h2 : j < nfa.states.length
    · have hne : i ≠ j := by
        intro hc
        exact h1 ⟨hc.symm, hc ▸ h2⟩
      rw [List.getD_eq_getElem _ _ (by omega), List.getElem_set_ne hne]
      unfold Nfa.stateF
      rw [List.getD_eq_getElem _ _ h2]
    · rw [List.getD_eq_default _ _ (by omega)]
      unfold Nfa.stateF
      rw [List.getD_eq_default _ _ (by omega)]

theorem goodInv_empty : GoodInv (Nfa.mk []) := by
  constructor
  · intro i hi
    simp at hi
  · intro i
    show ((Nfa.mk []).states.getD i default).accept = false
    simp only [List.getD_nil]
    rfl

theorem re2nfa_eq (root : Node) :
    Nfa.re2nfa root =
      ((((Nfa.mk []).add_state.insertAt 0 Label.Epsilon 1).constructNode root).add_state.setAccept
        ((((Nfa.mk []).add_state.insertAt 0 Label.Epsilon 1).constructNode
            root).add_state.states.length - 1)) :=
  rfl

/-- Claim C9: for every syntax tree accepted by re2nfa, the built NFA has at
least two states, its state at index 0 carries id 0 (the initial state), the
last appended state is accepting, and no earlier state is accepting (so the
final state is unique). -/
theorem claim_C9 (node : Node) :
    2 ≤ (Nfa.re2nfa node).states.length ∧
    ((Nfa.re2nfa node).stateF 0).id = 0 ∧
    ((Nfa.re2nfa node).stateF ((Nfa.re2nfa node).states.length - 1)).accept = true ∧
    (∀ i, i < (Nfa.re2nfa node).states.length - 1 →
      ((Nfa.re2nfa node).stateF i).accept = false) := by
  rw [re2nfa_eq]
  have hg2 : GoodInv (((Nfa.mk []).add_state.insertAt 0 Label.Epsilon 1).constructNode node) :=
    goodInv_constructNode (goodInv_insertAt (goodInv_add_state goodInv_empty))
  have hg3 : GoodInv (((Nfa.mk []).add_state.insertAt 0 Label.Epsilon 1).constructNode
      node).add_state := goodInv_add_state hg2
  have hL1 : 1 ≤ (((Nfa.mk []).add_state.insertAt 0 Label.Epsilon 1).constructNode
      node).states.length := by
    have h0 : ((Nfa.mk []).add_state.insertAt 0 Label.Epsilon 1).states.length = 1 := by
      rw [insertAt_length, add_state_length]
      rfl
    have := @len_constructNode_ge node ((Nfa.mk []).add_state.insertAt 0 Label.Epsilon 1)
    omega
  have hL3 : (((Nfa.mk []).add_state.insertAt 0 Label.Epsilon 1).constructNode
      node).add_state.states.length =
      (((Nfa.mk []).add_state.insertAt 0 Label.Epsilon 1).constructNode
        node).states.length + 1 := add_state_length
  refine ⟨?_, ?_, ?_, ?_⟩
  · rw [setAccept_length]
    omega
  · rw [stateF_setAccept, if_neg (by omega)]
    exact hg3.1 0 (by omega)
  · rw [setAccept_length, stateF_setAccept, if_pos ⟨rfl, by omega⟩]
  · intro i hi
    rw [setAccept_length] at hi
    rw [stateF_setAccept, if_neg (by omega)]
    exact hg3.2 i

end Re2NfaInvariants

section AcceptWalk

theorem acceptGo_cons {dfa : Dfa} {st : DState} {c : ℕ} {cs : List ℕ} :
    acceptGo dfa st (c :: cs) =
      match st.t.getD c none with
      | some next => acceptGo dfa (dfa.stateF next) cs
      | none => false :=
  rfl

theorem walk_cons {dfa : Dfa} {s c : ℕ} {cs : List ℕ} :
    walk dfa s (c :: cs) =
      match (dfa.stateF s).t.getD c none with
      | some n => walk dfa n cs
      | none => none :=
  rfl

theorem acceptGo_eq_walk {dfa : Dfa} :
    ∀ (w : List ℕ) (s : ℕ),
      acceptGo dfa (dfa.stateF s) w = true ↔ (walk dfa s w).isSome = true := by
  intro w
  induction w with
  | nil => intro s; simp [acceptGo, walk]
  | cons c cs ih =>
      intro s
      rw [acceptGo_cons, walk_cons]
      cases h : (dfa.stateF s).t.getD c none with
      | none => simp
      | some n => simpa using ih n

theorem accept_eq_walk {dfa : Dfa} {w : List ℕ} :
    dfa.accept w = true ↔ (walk dfa 0 w).isSome = true :=
  acceptGo_eq_walk w 0

theorem withFlags_stateF_t {dfa : Dfa} {g : ℕ → Bool} {i : ℕ} :
    ((dfa.withFlags g).stateF i).t = (dfa.stateF i).t := by
  unfold Dfa.withFlags Dfa.stateF
  by_cases h : i < dfa.states.length
  · rw [List.getD_eq_getElem _ _ (by simpa using h), List.getD_eq_getElem _ _ h,
      List.getElem_map]
  · rw [List.getD_eq_default _ _ (by simpa using le_of_not_lt h),
      List.getD_eq_default _ _ (le_of_not_lt h)]

theorem acceptGo_withFlags {dfa : Dfa} {g : ℕ → Bool} :
    ∀ (w : List ℕ) (s : ℕ),
      acceptGo (dfa.withFlags g) ((dfa.withFlags g).stateF s) w =
        acceptGo dfa (dfa.stateF s) w := by
  intro w
  induction w with
  | nil => intro s; rfl
  | cons c cs ih =>
      intro s
      show (match ((dfa.withFlags g).stateF s).t.getD c none with
        | some next => acceptGo (dfa.withFlags g) ((dfa.withFlags g).stateF next) cs
        | none => false) =
        (match (dfa.stateF s).t.getD c none with
        | some next => acceptGo dfa (dfa.stateF next) cs
        | none => false)
      rw [withFlags_stateF_t]
      cases h : (dfa.stateF s).t.getD c none with
      | none => rfl
      | some n => exact ih n

theorem accept_withFlags {dfa : Dfa} {g : ℕ → Bool} {w : List ℕ} :
    (dfa.withFlags g).accept w = dfa.accept w :=
  acceptGo_withFlags w 0

/-- Claim C10: Dfa::accept returns true exactly when the walk from state 0 has
a present transition entry for every character; the accept flags are never
consulted (replacing all of them changes nothing), and in particular the empty
string is accepted by every DFA, also when the start state is not
accepting. -/
theorem claim_C10 (dfa : Dfa) (hwf : dfa.Wf) (w : List ℕ) (g : ℕ → Bool) :
    (dfa.accept w = true ↔ (walk dfa 0 w).isSome = true) ∧
    dfa.accept [] = true ∧
    (dfa.withFlags g).accept w = dfa.accept w :=
  ⟨accept_eq_walk, rfl, accept_withFlags⟩

/-- Witness for claim C10 at the two-state DFA of the pipeline for the regex
of a single literal, whose start state is not accepting. -/
theorem claim_C10_witness :
    (dfaAListed.accept [97] = true ↔ (walk dfaAListed 0 [97]).isSome = true) ∧
    dfaAListed.accept [] = true ∧
    (dfaAListed.withFlags (fun _ => false)).accept [97] = dfaAListed.accept [97] :=
  claim_C10 dfaAListed (dfaWf_of_b (by decide)) [97] (fun _ => false)

end AcceptWalk

section ConcreteClaims

theorem dfaA_eq : dfaA = dfaAListed := by
  decide

/-- Claim C4 (evaluation): for the pipeline DFA of the regex of the single
literal a, accept is true on that character, FALSE is claimed on the empty
string but the code returns true (accept never reads the accept flags), and
the two-character string is rejected. -/
theorem claim_C4 :
    dfaA.accept [97] = true ∧ dfaA.accept [] = true ∧ dfaA.accept [97, 97] = false := by
  rw [dfaA_eq]
  exact ⟨by decide, by decide, by decide⟩

/-- Claim C1 (evaluation): on the four-state NFA cnfa the first dequeued
subset of Dfa::construct is the start set containing states 0 and 1; both
members carry a byte-0 transition, the member loop records only the closure
of the last member's target set, while the spec claims the closure of the
union of both target sets. -/
theorem claim_C1 :
    cnfa.start_states = [0, 1] ∧
    (subsetRow cnfa [0, 1]).getD 0 none = some [3] ∧
    claimedEntry cnfa [0, 1] 0 = some [2, 3] ∧
    ((some [3] : Option StateSet) ≠ some [2, 3]) := by
  refine ⟨by decide, by decide, by decide, by decide⟩

/-- Claim C2 (evaluation): rzMonoid is a genuine three-element monoid (index 0
is a two-sided identity and multiplication is associative) in which every
element x satisfies x^1 = x^2, so the claimed aperiodicity criterion holds
with n = 1 for every element; nevertheless is_aperiodic returns false. -/
theorem claim_C2 :
    rzMonoid.is_aperiodic = false ∧
    (∀ x, x < rzMonoid.size → mpow rzMonoid x 1 = mpow rzMonoid x 2) ∧
    rzMonoid.size = 3 ∧
    (∀ x, x < 3 → rzMonoid.multiply 0 x = x ∧ rzMonoid.multiply x 0 = x) ∧
    (∀ x, x < 3 → ∀ y, y < 3 → ∀ z, z < 3 →
      rzMonoid.multiply (rzMonoid.multiply x y) z =
        rzMonoid.multiply x (rzMonoid.multiply y z)) := by
  refine ⟨by decide, by decide, by decide, by decide, by decide⟩

/-- Claim C3 (evaluation): on the pipeline DFA of the single-literal regex,
the generator of byte 97 differs from the identity pattern, yet the while loop
of Monoid::construct terminates with the transitions map still holding only
the identity (the membership test before insertion is inverted), so the monoid
comes out with the trivial one-element table and an empty char_morphism. -/
theorem claim_C3 :
    genNext dfaA (TransitionPat.identity dfaA.states.length) 97 = [1, 2, 2] ∧
    genNext dfaA (TransitionPat.identity dfaA.states.length) 97 ≠
      TransitionPat.identity dfaA.states.length ∧
    monoidGo dfaA (TransitionPat.identity dfaA.states.length) 300
      [(TransitionPat.identity dfaA.states.length, 0)] []
      [TransitionPat.identity dfaA.states.length] =
      some ([(TransitionPat.identity dfaA.states.length, 0)], []) ∧
    Monoid.construct dfaA 300 = some { multiply_table := [[0]], char_morphism := [] } := by
  rw [dfaA_eq]
  exact ⟨by decide, by decide, by decide, by decide⟩

/-- Claim C5: two StateSets holding exactly the same members, built by
inserting the members in any two orders, compare equal and contribute the same
bytes to the hasher (the source hash implementation hashes the unit value
returned by sort(), so every set contributes the same, empty, byte string). -/
theorem claim_C5 (l1 l2 : List ℕ) (h : ∀ x, x ∈ l1 ↔ x ∈ l2) :
    fromList l1 = fromList l2 ∧ ssHashBytes (fromList l1) = ssHashBytes (fromList l2) := by
  have heq : fromList l1 = fromList l2 := by
    refine ssEq_of_mem_iff fromList_inv fromList_inv ?_
    intro a
    rw [mem_fromList, mem_fromList]
    exact h a
  exact ⟨heq, by rw [heq]⟩

/-- Witness for claim C5 with the same members inserted in two different
orders and multiplicities. -/
theorem claim_C5_witness :
    (∀ x, x ∈ [2, 1] ↔ x ∈ [1, 2, 2]) ∧
    (fromList [2, 1] = fromList [1, 2, 2] ∧
      ssHashBytes (fromList [2, 1]) = ssHashBytes (fromList [1, 2, 2])) :=
  ⟨by intro x; simp [List.mem_cons]; tauto,
    claim_C5 [2, 1] [1, 2, 2] (by intro x; simp [List.mem_cons]; tauto)⟩

/-- Claim C8: on a well-formed NFA, epsilon_expand is idempotent, extensive,
and monotone over StateSets of valid state indices. -/
theorem claim_C8 (nfa : Nfa) (hwf : nfa.Wf) (S T : StateSet)
    (hS : ∀ x ∈ S, x < nfa.states.length) (hT : ∀ x ∈ T, x < nfa.states.length) :
    nfa.epsilon_expand (nfa.epsilon_expand S) = nfa.epsilon_expand S ∧
    (∀ x ∈ S, x ∈ nfa.epsilon_expand S) ∧
    ((∀ x ∈ S, x ∈ T) → ∀ x ∈ nfa.epsilon_expand S, x ∈ nfa.epsilon_expand T) :=
  ⟨epsilon_expand_idem hwf hS, epsilon_expand_extensive hwf hS,
    fun hsub => epsilon_expand_monotone hwf hS hT hsub⟩

/-- Witness for claim C8 on the concrete NFA cnfa (which has an epsilon
edge). -/
theorem claim_C8_witness :
    cnfa.epsilon_expand (cnfa.epsilon_expand [0]) = cnfa.epsilon_expand [0] ∧
    (∀ x ∈ ([0] : StateSet), x ∈ cnfa.epsilon_expand [0]) ∧
    ((∀ x ∈ ([0] : StateSet), x ∈ ([0, 2] : StateSet)) →
      ∀ x ∈ cnfa.epsilon_expand [0], x ∈ cnfa.epsilon_expand [0, 2]) :=
  claim_C8 cnfa (nfaWf_of_b (by decide)) [0] [0, 2] (by decide) (by decide)

end ConcreteClaims

section MinimizeTable

theorem pairList_mem {n : ℕ} {p : ℕ × ℕ} :
    p ∈ pairList n ↔ p.1 < p.2 ∧ p.2 < n := by
  rcases p with ⟨i, j⟩
  simp only [pairList, List.mem_flatMap, List.mem_map, List.mem_filter, List.mem_range]
  constructor
  · rintro ⟨a, ha, b, ⟨hb, hab⟩, heq⟩
    obtain ⟨rfl, rfl⟩ := Prod.mk.injEq .. ▸ heq
    exact ⟨by simpa using hab, hb⟩
  · rintro ⟨hij, hj⟩
    exact ⟨i, lt_trans hij hj, j, ⟨hj, by simpa using hij⟩, rfl⟩

theorem countP_mono {α : Type} {l : List α} {p q : α → Bool}
    (h : ∀ a ∈ l, p a = true → q a = true) : l.countP p ≤ l.countP q := by
  induction l with
  | nil => simp
  | cons x xs ih =>
      rw [List.countP_cons, List.countP_cons]
      have h1 := ih (fun a ha => h a (List.mem_cons_of_mem x ha))
      by_cases hx : p x = true
      · rw [if_pos hx, if_pos (h x (List.mem_cons_self x xs) hx)]
        omega
      · rw [if_neg hx]
        omega

theorem countP_lt_of_strict {α : Type} {l : List α} {p q : α → Bool}
    (hmono : ∀ a ∈ l, p a = true → q a = true) (a0 : α) (ha0 : a0 ∈ l)
    (hp : p a0 = false) (hq : q a0 = true) : l.countP p < l.countP q := by
  induction l with
  | nil => cases ha0
  | cons x xs ih =>
      rw [List.countP_cons, List.countP_cons]
      have hmono2 : ∀ a ∈ xs, p a = true → q a = true :=
        fun a ha => hmono a (List.mem_cons_of_mem x ha)
      rcases List.mem_cons.mp ha0 with h | h
      · rw [h] at hp hq
        rw [hp, hq]
        have h1 := countP_mono hmono2
        have e1 : (if (false : Bool) = true then (1 : ℕ) else 0) = 0 := rfl
        have e2 : (if (true : Bool) = true then (1 : ℕ) else 0) = 1 := rfl
        rw [e1, e2]
        omega
      · have h1 := ih hmono2 h
        by_cases hx : p x = true
        · rw [if_pos hx, if_pos (hmono x (List.mem_cons_self x xs) hx)]
          omega
        · rw [if_neg hx]
          have h2 : (if q x = true then (1 : ℕ) else 0) ≤ 1 := by
            by_cases hqx : q x = true
            · rw [if_pos hqx]
            · rw [if_neg hqx]
              omega
          omega

theorem countP_le_length {α : Type} {l : List α} {p : α → Bool} :
    l.countP p ≤ l.length :=
  List.countP_le_length p

theorem passStep_monotone {dfa : Dfa} {st : (ℕ → ℕ → Bool) × Bool} {q : ℕ × ℕ}
    {a b : ℕ} (h : st.1 a b = true) : (passStep dfa st q).1 a b = true := by
  unfold passStep
  split
  · exact h
  · split
    · show updT st.1 q.1 q.2 a b = true
      unfold updT
      split
      · rfl
      · exact h
    · exact h

theorem passFold_monotone {dfa : Dfa} :
    ∀ (l : List (ℕ × ℕ)) (st : (ℕ → ℕ → Bool) × Bool) {a b : ℕ},
      st.1 a b = true → (l.foldl (passStep dfa) st).1 a b = true := by
  intro l
  induction l with
  | nil => intro st a b h; exact h
  | cons q qs ih => intro st a b h; exact ih _ (passStep_monotone h)

theorem passStep_flag_monotone {dfa : Dfa} {st : (ℕ → ℕ → Bool) × Bool} {q : ℕ × ℕ}
    (h : st.2 = true) : (passStep dfa st q).2 = true := by
  unfold passStep
  split
  · exact h
  · split
    · rfl
    · exact h

theorem passFold_flag_monotone {dfa : Dfa} :
    ∀ (l : List (ℕ × ℕ)) (st : (ℕ → ℕ → Bool) × Bool),
      st.2 = true → (l.foldl (passStep dfa) st).2 = true := by
  intro l
  induction l with
  | nil => intro st h; exact h
  | cons q qs ih => intro st h; exact ih _ (passStep_flag_monotone h)

theorem passFold_flag_false {dfa : Dfa} :
    ∀ (l : List (ℕ × ℕ)) (st : (ℕ → ℕ → Bool) × Bool),
      (l.foldl (passStep dfa) st).2 = false →
      (l.foldl (passStep dfa) st).1 = st.1 ∧
      (∀ q ∈ l, st.1 q.1 q.2 = true ∨
        ∀ c, c < 256 → markCond dfa st.1 q.1 q.2 c = false) := by
  intro l
  induction l with
  | nil => intro st h; exact ⟨rfl, fun q hq => absurd hq (List.not_mem_nil q)⟩
  | cons q qs ih =>
      intro st hf
      rw [List.foldl_cons] at hf
      have hstep : passStep dfa st q = st ∧
          (st.1 q.1 q.2 = true ∨ ∀ c, c < 256 → markCond dfa st.1 q.1 q.2 c = false) := by
        unfold passStep
        split
        · rename_i h1
          exact ⟨rfl, Or.inl h1⟩
        · split
          · rename_i h1 h2
            exfalso
            have hps : passStep dfa st q = (updT st.1 q.1 q.2, true) := by
              unfold passStep
              rw [if_neg h1, if_pos h2]
            rw [hps] at hf
            have hmono := @passFold_flag_monotone dfa qs (updT st.1 q.1 q.2, true) rfl
            rw [hmono] at hf
            cases hf
          · rename_i h1 h2
            refine ⟨rfl, Or.inr ?_⟩
            intro c hc
            by_cases h : markCond dfa st.1 q.1 q.2 c = true
            · exact absurd (List.any_eq_true.mpr ⟨c, List.mem_range.mpr hc, h⟩) h2
            · simpa using h
      obtain ⟨hk, hcond⟩ := hstep
      rw [hk] at hf
      rw [List.foldl_cons, hk]
      obtain ⟨ht, hrest⟩ := ih st hf
      refine ⟨ht, ?_⟩
      intro r hr
      rcases List.mem_cons.mp hr with h | h
      · exact h ▸ hcond
      · exact hrest r h

theorem passFold_flag_true_flip {dfa : Dfa} :
    ∀ (l : List (ℕ × ℕ)) (st : (ℕ → ℕ → Bool) × Bool),
      (l.foldl (passStep dfa) st).2 = true →
      st.2 = true ∨ ∃ q ∈ l, st.1 q.1 q.2 = false ∧
        (l.foldl (passStep dfa) st).1 q.1 q.2 = true := by
  intro l
  induction l with
  | nil => intro st h; exact Or.inl h
  | cons q qs ih =>
      intro st hf
      rw [List.foldl_cons] at hf
      by_cases h1 : st.1 q.1 q.2 = true
      · have hk : passStep dfa st q = st := by
          unfold passStep
          rw [if_pos h1]
        rw [hk] at hf
        rcases ih st hf with h | ⟨r, hr, hr1, hr2⟩
        · exact Or.inl h
        · refine Or.inr ⟨r, List.mem_cons_of_mem q hr, hr1, ?_⟩
          rw [List.foldl_cons, hk]
          exact hr2
      · by_cases h2 : (List.range 256).any (fun c => markCond dfa st.1 q.1 q.2 c) = true
        · have hps : passStep dfa st q = (updT st.1 q.1 q.2, true) := by
            unfold passStep
            rw [if_neg h1, if_pos h2]
          refine Or.inr ⟨q, List.mem_cons_self q qs, by simpa using h1, ?_⟩
          rw [List.foldl_cons, hps]
          refine passFold_monotone qs _ ?_
          show updT st.1 q.1 q.2 q.1 q.2 = true
          unfold updT
          rw [if_pos ⟨rfl, rfl⟩]
        · have hk : passStep dfa st q = st := by
            unfold passStep
            rw [if_neg h1, if_neg h2]
          rw [hk] at hf
          rcases ih st hf with h | ⟨r, hr, hr1, hr2⟩
          · exact Or.inl h
          · refine Or.inr ⟨r, List.mem_cons_of_mem q hr, hr1, ?_⟩
            rw [List.foldl_cons, hk]
            exact hr2

theorem passOnce_false_eq {dfa : Dfa} {d : ℕ → ℕ → Bool}
    (h : (passOnce dfa d).2 = false) : (passOnce dfa d).1 = d :=
  (passFold_flag_false _ _ h).1

theorem countMarked_le {dfa : Dfa} {d : ℕ → ℕ → Bool} :
    countMarked dfa d ≤ numPairs dfa :=
  List.countP_le_length _

theorem passOnce_true_count {dfa : Dfa} {d : ℕ → ℕ → Bool}
    (h : (passOnce dfa d).2 = true) :
    countMarked dfa d < countMarked dfa (passOnce dfa d).1 := by
  rcases passFold_flag_true_flip (pairList dfa.states.length) (d, false) h with
    h1 | ⟨q, hq, hqf, hqt⟩
  · cases h1
  · exact countP_lt_of_strict (fun a _ hp => passFold_monotone _ _ hp) q hq hqf hqt

theorem fixTable_succ {dfa : Dfa} {fuel : ℕ} {d : ℕ → ℕ → Bool} :
    fixTable dfa (fuel + 1) d =
      if (passOnce dfa d).2 then fixTable dfa fuel (passOnce dfa d).1
      else (passOnce dfa d).1 :=
  rfl

theorem fixTable_stable {dfa : Dfa} :
    ∀ (fuel : ℕ) (d : ℕ → ℕ → Bool),
      numPairs dfa + 1 ≤ fuel + countMarked dfa d →
      (passOnce dfa (fixTable dfa fuel d)).2 = false := by
  intro fuel
  induction fuel with
  | zero =>
      intro d h
      exfalso
      have := @countMarked_le dfa d
      omega
  | succ fuel ih =>
      intro d h
      rw [fixTable_succ]
      by_cases hp : (passOnce dfa d).2 = true
      · rw [if_pos hp]
        refine ih _ ?_
        have := passOnce_true_count hp
        omega
      · have hf : (passOnce dfa d).2 = false := by simpa using hp
        rw [if_neg hp, passOnce_false_eq hf]
        exact hf

theorem fixTable_ge {dfa : Dfa} :
    ∀ (fuel : ℕ) (d : ℕ → ℕ → Bool) {a b : ℕ},
      d a b = true → fixTable dfa fuel d a b = true := by
  intro fuel
  induction fuel with
  | zero => intro d a b h; exact h
  | succ fuel ih =>
      intro d a b h
      rw [fixTable_succ]
      by_cases hp : (passOnce dfa d).2 = true
      · rw [if_pos hp]
        exact ih _ (passFold_monotone _ _ h)
      · rw [if_neg hp]
        exact passFold_monotone _ _ h

theorem obsAgree_symm {dfa : Dfa} {o1 o2 : Option ℕ}
    (h : ObsAgree dfa o1 o2) : ObsAgree dfa o2 o1 := by
  cases o1 <;> cases o2 <;> simp [ObsAgree] at h ⊢ <;> try exact h.symm

theorem obsAgree_trans {dfa : Dfa} {o1 o2 o3 : Option ℕ}
    (h1 : ObsAgree dfa o1 o2) (h2 : ObsAgree dfa o2 o3) : ObsAgree dfa o1 o3 := by
  cases o1 <;> cases o2 <;> cases o3 <;> simp [ObsAgree] at h1 h2 ⊢ <;>
    try exact h1.trans h2

theorem dfaEquiv_symm {dfa : Dfa} {i j : ℕ}
    (h : DfaEquiv dfa i j) : DfaEquiv dfa j i :=
  fun w => obsAgree_symm (h w)

theorem dfaEquiv_trans {dfa : Dfa} {i j k : ℕ}
    (h1 : DfaEquiv dfa i j) (h2 : DfaEquiv dfa j k) : DfaEquiv dfa i k :=
  fun w => obsAgree_trans (h1 w) (h2 w)

theorem walk_cons_some {dfa : Dfa} {s c n : ℕ} {w : List ℕ}
    (h : dt dfa s c = some n) : walk dfa s (c :: w) = walk dfa n w := by
  rw [walk_cons, show (dfa.stateF s).t.getD c none = some n from h]

theorem walk_cons_none {dfa : Dfa} {s c : ℕ} {w : List ℕ}
    (h : dt dfa s c = none) : walk dfa s (c :: w) = none := by
  rw [walk_cons, show (dfa.stateF s).t.getD c none = none from h]

theorem initTable_sound {dfa : Dfa} : TableSound dfa (initTable dfa) := by
  intro i j _ _ hmark heq
  have h0 := heq []
  have hw1 : walk dfa i [] = some i := rfl
  have hw2 : walk dfa j [] = some j := rfl
  rw [hw1, hw2] at h0
  have hacc : (dfa.stateF i).accept = (dfa.stateF j).accept := h0
  rw [initTable] at hmark
  simp only [decide_eq_true_eq] at hmark
  exact hmark hacc

theorem markCond_sound {dfa : Dfa} (hwf : dfa.Wf) {d : ℕ → ℕ → Bool}
    (hs : TableSound dfa d) {i j c : ℕ} (hij : i < j) (hj : j < dfa.states.length)
    (h : markCond dfa d i j c = true) : ¬ DfaEquiv dfa i j := by
  intro heq
  rw [markCond] at h
  by_cases he : dt dfa i c = dt dfa j c
  · rw [if_pos he] at h
    cases h
  · rw [if_neg he] at h
    cases h1 : dt dfa i c with
    | none =>
        cases h2 : dt dfa j c with
        | none => exact he (h1.trans h2.symm)
        | some b =>
            have hw := heq [c]
            rw [walk_cons_none h1, walk_cons_some h2] at hw
            have hwb : walk dfa b [] = some b := rfl
            rw [hwb] at hw
            exact hw
    | some a =>
        cases h2 : dt dfa j c with
        | none =>
            have hw := heq [c]
            rw [walk_cons_some h1, walk_cons_none h2] at hw
            have hwa : walk dfa a [] = some a := rfl
            rw [hwa] at hw
            exact hw
        | some b =>
            rw [h1, h2] at h
            have hab : a ≠ b := by
              intro hc
              exact he (by rw [h1, h2, hc])
            have ha : a < dfa.states.length := hwf.2.2.1 i c a (lt_trans hij hj) h1
            have hb : b < dfa.states.length := hwf.2.2.1 j c b hj h2
            have hequl : DfaEquiv dfa a b := by
              intro w
              have hw := heq (c :: w)
              rw [walk_cons_some h1, walk_cons_some h2] at hw
              exact hw
            have hred : (if a ≤ b then d a b else d b a) = true := h
            rcases Nat.lt_or_ge a b with hlt | hge
            · rw [if_pos (le_of_lt hlt)] at hred
              exact hs a b hlt hb hred hequl
            · have hlt : b < a := by omega
              rw [if_neg (by omega)] at hred
              exact hs b a hlt ha hred (dfaEquiv_symm hequl)

theorem passFold_sound {dfa : Dfa} (hwf : dfa.Wf) :
    ∀ (l : List (ℕ × ℕ)) (st : (ℕ → ℕ → Bool) × Bool),
      (∀ q ∈ l, q.1 < q.2 ∧ q.2 < dfa.states.length) →
      TableSound dfa st.1 → TableSound dfa (l.foldl (passStep dfa) st).1 := by
  intro l
  induction l with
  | nil => intro st _ hs; exact hs
  | cons q qs ih =>
      intro st hl hs
      rw [List.foldl_cons]
      refine ih _ (fun r hr => hl r (List.mem_cons_of_mem q hr)) ?_
      obtain ⟨hq1, hq2⟩ := hl q (List.mem_cons_self q qs)
      unfold passStep
      split
      · exact hs
      · split
        · rename_i h1 h2
          show TableSound dfa (updT st.1 q.1 q.2)
          intro a b hab hbn hm
          by_cases hc : a = q.1 ∧ b = q.2
          · obtain ⟨rfl, rfl⟩ := hc
            obtain ⟨c, _, hcm⟩ := List.any_eq_true.mp h2
            exact markCond_sound hwf hs hq1 hq2 hcm
          · have hm2 : st.1 a b = true := by
              rw [updT, if_neg hc] at hm
              exact hm
            exact hs a b hab hbn hm2
        · exact hs

theorem fixTable_sound {dfa : Dfa} (hwf : dfa.Wf) :
    ∀ (fuel : ℕ) (d : ℕ → ℕ → Bool),
      TableSound dfa d → TableSound dfa (fixTable dfa fuel d) := by
  intro fuel
  induction fuel with
  | zero => intro d h; exact h
  | succ fuel ih =>
      intro d h
      rw [fixTable_succ]
      have hpass : TableSound dfa (passOnce dfa d).1 :=
        passFold_sound hwf _ _ (fun q hq => pairList_mem.mp hq) h
      by_cases hp : (passOnce dfa d).2 = true
      · rw [if_pos hp]
        exact ih _ hpass
      · rw [if_neg hp]
        exact hpass

theorem distTable_sound {dfa : Dfa} (hwf : dfa.Wf) : TableSound dfa (distTable dfa) :=
  fixTable_sound hwf _ _ initTable_sound

theorem distTable_stable {dfa : Dfa} : (passOnce dfa (distTable dfa)).2 = false :=
  fixTable_stable (numPairs dfa + 1) (initTable dfa) (by omega)

theorem distTable_ge_init {dfa : Dfa} {i j : ℕ}
    (h : initTable dfa i j = true) : distTable dfa i j = true :=
  fixTable_ge _ _ h

theorem distTable_flags {dfa : Dfa} {i j : ℕ}
    (h : distTable dfa i j = false) :
    (dfa.stateF i).accept = (dfa.stateF j).accept := by
  by_cases hf : (dfa.stateF i).accept = (dfa.stateF j).accept
  · exact hf
  · exfalso
    have hinit : initTable dfa i j = true := by
      rw [initTable]
      simpa using hf
    rw [distTable_ge_init hinit] at h
    cases h

theorem distTable_compat {dfa : Dfa} {i j c : ℕ} (hij : i < j)
    (hj : j < dfa.states.length) (hm : distTable dfa i j = false) (hc : c < 256) :
    markCond dfa (distTable dfa) i j c = false := by
  obtain ⟨_, hall⟩ := passFold_flag_false (pairList dfa.states.length)
    (distTable dfa, false) distTable_stable
  rcases hall (i, j) (pairList_mem.mpr ⟨hij, hj⟩) with h | h
  · have h2 : distTable dfa i j = true := h
    rw [hm] at h2
    cases h2
  · exact h c hc

end MinimizeTable

section URelTheory

theorem dt_high {dfa : Dfa} (hwf : dfa.Wf) {p c : ℕ} (hc : 256 ≤ c) :
    dt dfa p c = none := by
  by_cases hp : p < dfa.states.length
  · have hlen := hwf.2.2.2 p hp
    rw [dt, List.getD_eq_default _ _ (by omega)]
  · have hdef : dfa.stateF p = default := by
      unfold Dfa.stateF
      exact List.getD_eq_default _ _ (le_of_not_lt hp)
    rw [dt, hdef]
    show (List.replicate 256 (none : Option ℕ)).getD c none = none
    rw [List.getD_eq_default _ _ (by simpa using hc)]

theorem urel_refl {dfa : Dfa} {d : ℕ → ℕ → Bool} {i : ℕ}
    (h : i < dfa.states.length) : URel dfa d i i :=
  ⟨h, h, Or.inl rfl⟩

theorem urel_symm {dfa : Dfa} {d : ℕ → ℕ → Bool} {i j : ℕ}
    (h : URel dfa d i j) : URel dfa d j i := by
  obtain ⟨hi, hj, hd⟩ := h
  refine ⟨hj, hi, ?_⟩
  tauto

theorem urel_flags {dfa : Dfa} {i j : ℕ}
    (h : URel dfa (distTable dfa) i j) :
    (dfa.stateF i).accept = (dfa.stateF j).accept := by
  obtain ⟨_, _, hd⟩ := h
  rcases hd with rfl | ⟨_, hm⟩ | ⟨_, hm⟩
  · rfl
  · exact distTable_flags hm
  · exact (distTable_flags hm).symm

theorem urel_step_lt {dfa : Dfa} (hwf : dfa.Wf) {i j c : ℕ} (hij : i < j)
    (hj : j < dfa.states.length) (hm : distTable dfa i j = false) (hc : c < 256) :
    (dt dfa i c = none ∧ dt dfa j c = none) ∨
    (∃ a b, dt dfa i c = some a ∧ dt dfa j c = some b ∧
      URel dfa (distTable dfa) a b) := by
  have hcomp := distTable_compat hij hj hm hc
  rw [markCond] at hcomp
  by_cases he : dt dfa i c = dt dfa j c
  · cases h1 : dt dfa i c with
    | none => exact Or.inl ⟨rfl, he.symm.trans h1⟩
    | some a =>
        have ha : a < dfa.states.length :=
          hwf.2.2.1 i c a (lt_trans hij hj) h1
        exact Or.inr ⟨a, a, rfl, he.symm.trans h1, urel_refl ha⟩
  · rw [if_neg he] at hcomp
    cases h1 : dt dfa i c with
    | none =>
        cases h2 : dt dfa j c with
        | none => exact absurd (h1.trans h2.symm) he
        | some b =>
            rw [h1, h2] at hcomp
            cases hcomp
    | some a =>
        cases h2 : dt dfa j c with
        | none =>
            rw [h1, h2] at hcomp
            cases hcomp
        | some b =>
            rw [h1, h2] at hcomp
            have ha : a < dfa.states.length :=
              hwf.2.2.1 i c a (lt_trans hij hj) h1
            have hb : b < dfa.states.length := hwf.2.2.1 j c b hj h2
            have hab : a ≠ b := by
              intro hcon
              exact he (by rw [h1, h2, hcon])
            refine Or.inr ⟨a, b, rfl, rfl, ha, hb, ?_⟩
            have hred : (if a ≤ b then distTable dfa a b else distTable dfa b a) = false :=
              hcomp
            rcases Nat.lt_or_ge a b with hlt | hge
            · rw [if_pos (le_of_lt hlt)] at hred
              exact Or.inr (Or.inl ⟨hlt, hred⟩)
            · have hlt : b < a := by omega
              rw [if_neg (by omega)] at hred
              exact Or.inr (Or.inr ⟨hlt, hred⟩)

theorem urel_step {dfa : Dfa} (hwf : dfa.Wf) {i j c : ℕ}
    (h : URel dfa (distTable dfa) i j) :
    (dt dfa i c = none ∧ dt dfa j c = none) ∨
    (∃ a b, dt dfa i c = some a ∧ dt dfa j c = some b ∧
      URel dfa (distTable dfa) a b) := by
  obtain ⟨hi, hj, hd⟩ := h
  by_cases hc : c < 256
  · rcases hd with rfl | ⟨hij, hm⟩ | ⟨hji, hm⟩
    · cases h1 : dt dfa i c with
      | none => exact Or.inl ⟨rfl, rfl⟩
      | some a =>
          have ha : a < dfa.states.length := hwf.2.2.1 i c a hi h1
          exact Or.inr ⟨a, a, rfl, rfl, urel_refl ha⟩
    · exact urel_step_lt hwf hij hj hm hc
    · rcases urel_step_lt hwf hji hi hm hc with ⟨h1, h2⟩ | ⟨a, b, h1, h2, hab⟩
      · exact Or.inl ⟨h2, h1⟩
      · exact Or.inr ⟨b, a, h2, h1, urel_symm hab⟩
  · rw [dt_high hwf (by omega), dt_high hwf (by omega)]
    exact Or.inl ⟨rfl, rfl⟩

theorem urel_walk {dfa : Dfa} (hwf : dfa.Wf) :
    ∀ (w : List ℕ) {i j : ℕ}, URel dfa (distTable dfa) i j →
      (walk dfa i w = none ∧ walk dfa j w = none) ∨
      (∃ a b, walk dfa i w = some a ∧ walk dfa j w = some b ∧
        URel dfa (distTable dfa) a b) := by
  intro w
  induction w with
  | nil => intro i j h; exact Or.inr ⟨i, j, rfl, rfl, h⟩
  | cons c cs ih =>
      intro i j h
      rcases @urel_step dfa hwf i j c h with ⟨h1, h2⟩ | ⟨a, b, h1, h2, hab⟩
      · rw [walk_cons_none h1, walk_cons_none h2]
        exact Or.inl ⟨rfl, rfl⟩
      · rw [walk_cons_some h1, walk_cons_some h2]
        exact ih hab

theorem urel_equiv {dfa : Dfa} (hwf : dfa.Wf) {i j : ℕ}
    (h : URel dfa (distTable dfa) i j) : DfaEquiv dfa i j := by
  intro w
  rcases urel_walk hwf w h with ⟨h1, h2⟩ | ⟨a, b, h1, h2, hab⟩
  · rw [h1, h2]
    show True
    trivial
  · rw [h1, h2]
    show (dfa.stateF a).accept = (dfa.stateF b).accept
    exact urel_flags hab

theorem urel_trans {dfa : Dfa} (hwf : dfa.Wf) {i j k : ℕ}
    (h1 : URel dfa (distTable dfa) i j) (h2 : URel dfa (distTable dfa) j k) :
    URel dfa (distTable dfa) i k := by
  have hi := h1.1
  have hk := h2.2.1
  by_cases hik : i = k
  · exact hik ▸ urel_refl hi
  · have heq : DfaEquiv dfa i k :=
      dfaEquiv_trans (urel_equiv hwf h1) (urel_equiv hwf h2)
    rcases Nat.lt_or_ge i k with hlt | hge
    · refine ⟨hi, hk, Or.inr (Or.inl ⟨hlt, ?_⟩)⟩
      by_cases hd : distTable dfa i k = true
      · exact absurd heq (distTable_sound hwf i k hlt hk hd)
      · simpa using hd
    · have hlt : k < i := by omega
      refine ⟨hi, hk, Or.inr (Or.inr ⟨hlt, ?_⟩)⟩
      by_cases hd : distTable dfa k i = true
      · exact absurd (dfaEquiv_symm heq) (distTable_sound hwf k i hlt hi hd)
      · simpa using hd

end URelTheory

section SwapMap

theorem find?_append_none {α : Type} {l1 l2 : List α} {p : α → Bool}
    (h : l1.find? p = none) : (l1 ++ l2).find? p = l2.find? p := by
  induction l1 with
  | nil => rfl
  | cons x xs ih =>
      by_cases hx : p x = true
      · rw [List.find?_cons_of_pos _ hx] at h
        cases h
      · have hx2 : p x = false := by simpa using hx
        rw [List.find?_cons_of_neg _ (by simp [hx2])] at h
        rw [List.cons_append, List.find?_cons_of_neg _ (by simp [hx2])]
        exact ih h

theorem find?_append_some {α : Type} {l1 l2 : List α} {p : α → Bool} {a : α}
    (h : l1.find? p = some a) : (l1 ++ l2).find? p = some a := by
  induction l1 with
  | nil => cases h
  | cons x xs ih =>
      by_cases hx : p x = true
      · rw [List.find?_cons_of_pos _ hx] at h
        rw [List.cons_append, List.find?_cons_of_pos _ hx]
        exact h
      · have hx2 : p x = false := by simpa using hx
        rw [List.find?_cons_of_neg _ (by simp [hx2])] at h
        rw [List.cons_append, List.find?_cons_of_neg _ (by simp [hx2])]
        exact ih h

theorem find?_range_none {p : ℕ → Bool} :
    ∀ {j : ℕ}, (List.range j).find? p = none ↔ ∀ i, i < j → p i = false := by
  intro j
  induction j with
  | zero => simp
  | succ j ih =>
      rw [List.range_succ]
      constructor
      · intro h
        cases hfj : (List.range j).find? p with
        | some a =>
            rw [find?_append_some hfj] at h
            cases h
        | none =>
            rw [find?_append_none hfj] at h
            intro i hi
            rcases Nat.lt_or_ge i j with h2 | h2
            · exact ih.mp hfj i h2
            · have hij : i = j := by omega
              subst hij
              by_cases hp : p i = true
              · rw [List.find?_cons_of_pos _ hp] at h
                cases h
              · simpa using hp
      · intro hall
        have hfj : (List.range j).find? p = none :=
          ih.mpr (fun i hi => hall i (by omega))
        rw [find?_append_none hfj]
        rw [List.find?_cons_of_neg _ (by simp [hall j (by omega)])]
        rfl

theorem find?_range_some {p : ℕ → Bool} :
    ∀ {j i : ℕ}, (List.range j).find? p = some i ↔
      i < j ∧ p i = true ∧ ∀ k, k < i → p k = false := by
  intro j
  induction j with
  | zero => intro i; simp
  | succ j ih =>
      intro i
      rw [List.range_succ]
      cases hfj : (List.range j).find? p with
      | some a =>
          rw [find?_append_some hfj]
          obtain ⟨ha1, ha2, ha3⟩ := ih.mp hfj
          constructor
          · intro h
            have : a = i := by
              injection h
            subst this
            exact ⟨by omega, ha2, ha3⟩
          · rintro ⟨hi1, hi2, hi3⟩
            have : a = i := by
              rcases Nat.lt_trichotomy a i with h2 | h2 | h2
              · rw [hi3 a h2] at ha2
                cases ha2
              · exact h2
              · rw [ha3 i h2] at hi2
                cases hi2
            rw [this]
      | none =>
          rw [find?_append_none hfj]
          have hnone := find?_range_none.mp hfj
          by_cases hp : p j = true
          · rw [List.find?_cons_of_pos _ hp]
            constructor
            · intro h
              have : j = i := by
                injection h
              subst this
              exact ⟨by omega, hp, hnone⟩
            · rintro ⟨hi1, hi2, hi3⟩
              have : j = i := by
                rcases Nat.lt_or_ge i j with h2 | h2
                · rw [hnone i h2] at hi2
                  cases hi2
                · omega
              rw [this]
          · have hp2 : p j = false := by simpa using hp
            rw [List.find?_cons_of_neg _ (by simp [hp2])]
            constructor
            · intro h
              cases h
            · rintro ⟨hi1, hi2, hi3⟩
              rcases Nat.lt_or_ge i j with h2 | h2
              · rw [hnone i h2] at hi2
                cases hi2
              · have : i = j := by omega
                rw [this] at hi2
                rw [hi2] at hp2
                cases hp2

theorem foldl_flatMap {α β γ : Type} (f : β → α → β) (g : γ → List α) :
    ∀ (l : List γ) (init : β),
      (l.flatMap g).foldl f init = l.foldl (fun acc x => (g x).foldl f acc) init := by
  intro l
  induction l with
  | nil => intro init; rfl
  | cons x xs ih =>
      intro init
      rw [List.flatMap_cons, List.foldl_append, List.foldl_cons]
      exact ih _

theorem swapStep_apply {d : ℕ → ℕ → Bool} {m : ℕ → Option ℕ} {k j j0 : ℕ} :
    swapStep d m (k, j) j0 =
      if j0 = j ∧ (m j).isNone = true ∧ d k j = false then some k else m j0 := by
  unfold swapStep
  by_cases hcond : ((m j).isNone && !(d k j)) = true
  · simp only [Bool.and_eq_true, Bool.not_eq_true'] at hcond
    rw [if_pos (by simp [hcond.1, hcond.2])]
    by_cases hj : j0 = j
    · rw [if_pos hj, if_pos ⟨hj, hcond.1, hcond.2⟩]
    · rw [if_neg hj, if_neg (by tauto)]
  · rw [if_neg hcond]
    by_cases hj : j0 = j ∧ (m j).isNone = true ∧ d k j = false
    · exfalso
      apply hcond
      simp [hj.2.1, hj.2.2]
    · rw [if_neg hj]

theorem swapBlock_apply {d : ℕ → ℕ → Bool} {k : ℕ} :
    ∀ (js : List ℕ) (m : ℕ → Option ℕ) (j0 : ℕ),
      (js.foldl (fun m j => swapStep d m (k, j)) m) j0 =
        if j0 ∈ js ∧ (m j0).isNone = true ∧ d k j0 = false then some k else m j0 := by
  intro js
  induction js with
  | nil =>
      intro m j0
      rw [List.foldl_nil, if_neg (by simp)]
  | cons j js ih =>
      intro m j0
      rw [List.foldl_cons, ih]
      by_cases hj : j0 = j
      · subst hj
        by_cases hE : (m j0).isNone = true ∧ d k j0 = false
        · have hm1 : swapStep d m (k, j0) j0 = some k := by
            rw [swapStep_apply, if_pos ⟨rfl, hE.1, hE.2⟩]
          rw [hm1]
          rw [if_neg (by
            rintro ⟨_, hno, _⟩
            simp at hno)]
          rw [if_pos ⟨List.mem_cons_self _ _, hE.1, hE.2⟩]
        · have hm1 : swapStep d m (k, j0) j0 = m j0 := by
            rw [swapStep_apply, if_neg (by tauto)]
          rw [hm1]
          rw [if_neg (by
            rintro ⟨_, h2, h3⟩
            exact hE ⟨h2, h3⟩)]
          rw [if_neg (by
            rintro ⟨_, h2, h3⟩
            exact hE ⟨h2, h3⟩)]
      · have hm1 : swapStep d m (k, j) j0 = m j0 := by
          rw [swapStep_apply, if_neg (by tauto)]
        rw [hm1]
        by_cases hc : j0 ∈ js ∧ (m j0).isNone = true ∧ d k j0 = false
        · rw [if_pos hc, if_pos ⟨List.mem_cons_of_mem j hc.1, hc.2.1, hc.2.2⟩]
        · rw [if_neg hc, if_neg (by
            rintro ⟨hmem, h2, h3⟩
            rcases List.mem_cons.mp hmem with h | h
            · exact hj h
            · exact hc ⟨h, h2, h3⟩)]

theorem swapMapF_eq {dfa : Dfa} {d : ℕ → ℕ → Bool} :
    ∀ j, swapMapF dfa d j =
      if j < dfa.states.length then (List.range j).find? (fun i => !(d i j))
      else none := by
  have hmain : ∀ (k : ℕ) (j : ℕ),
      ((List.range k).foldl
        (fun m i => (((List.range dfa.states.length).filter
          (fun j => decide (i < j))).map (fun j => (i, j))).foldl (swapStep d) m)
        (fun _ => none)) j =
      if j < dfa.states.length then
        (List.range (if j ≤ k then j else k)).find? (fun i => !(d i j))
      else none := by
    intro k
    induction k with
    | zero =>
        intro j
        rw [List.range_zero, List.foldl_nil]
        by_cases hj : j < dfa.states.length
        · rw [if_pos hj]
          have hz : (if j ≤ 0 then j else 0) = 0 := by
            by_cases h0 : j ≤ 0
            · rw [if_pos h0]
              omega
            · rw [if_neg h0]
          rw [hz]
          rfl
        · rw [if_neg hj]
    | succ k ih =>
        intro j
        rw [List.range_succ, List.foldl_append, List.foldl_cons, List.foldl_nil]
        have hblock : ∀ (m : ℕ → Option ℕ) (j0 : ℕ),
            ((((List.range dfa.states.length).filter
              (fun j => decide (k < j))).map (fun j => (k, j))).foldl (swapStep d) m) j0 =
            if (j0 ∈ (List.range dfa.states.length).filter (fun j => decide (k < j))) ∧
              (m j0).isNone = true ∧ d k j0 = false then some k else m j0 := by
          intro m j0
          rw [List.foldl_map]
          exact swapBlock_apply _ m j0
        rw [hblock, ih j]
        by_cases hj : j < dfa.states.length
        · rw [if_pos hj]
          by_cases hjk : j ≤ k
          · have hmem : j ∉ (List.range dfa.states.length).filter
                (fun x => decide (k < x)) := by
              intro hc
              have := (List.mem_filter.mp hc).2
              simp at this
              omega
            rw [if_neg (by tauto)]
            have e1 : (if j ≤ k then j else k) = j := if_pos hjk
            have e2 : (if j ≤ k + 1 then j else k + 1) = j := if_pos (by omega)
            rw [if_pos hj, e1, e2]
          · have hmem : j ∈ (List.range dfa.states.length).filter
                (fun x => decide (k < x)) :=
              List.mem_filter.mpr ⟨List.mem_range.mpr hj, by simp; omega⟩
            have e1 : (if j ≤ k then j else k) = k := if_neg hjk
            have e2 : (if j ≤ k + 1 then j else k + 1) = k + 1 := by
              by_cases h2 : j ≤ k + 1
              · rw [if_pos h2]
                omega
              · rw [if_neg h2]
            rw [if_pos hj, e1, e2, List.range_succ]
            cases hf : (List.range k).find? (fun i => !(d i j)) with
            | some a =>
                rw [find?_append_some hf]
                rw [if_neg (by
                  rintro ⟨_, hno, _⟩
                  simp at hno)]
            | none =>
                rw [find?_append_none hf]
                by_cases hd : d k j = false
                · rw [if_pos ⟨hmem, rfl, hd⟩]
                  rw [List.find?_cons_of_pos _ (by simp [hd])]
                · have hd2 : d k j = true := by simpa using hd
                  rw [if_neg (by
                    rintro ⟨_, _, h3⟩
                    rw [h3] at hd2
                    cases hd2)]
                  rw [List.find?_cons_of_neg _ (by simp [hd2])]
                  rfl
        · rw [if_neg hj]
          have hmem : j ∉ (List.range dfa.states.length).filter
              (fun x => decide (k < x)) := by
            intro hc
            have := List.mem_range.mp (List.mem_filter.mp hc).1
            omega
          rw [if_neg (by tauto), if_neg hj]
  intro j
  have hrw : swapMapF dfa d j =
      ((List.range dfa.states.length).foldl
        (fun m i => (((List.range dfa.states.length).filter
          (fun j => decide (i < j))).map (fun j => (i, j))).foldl (swapStep d) m)
        (fun _ => none)) j := by
    rw [swapMapF, pairList, foldl_flatMap]
  rw [hrw, hmain dfa.states.length j]
  by_cases hj : j < dfa.states.length
  · rw [if_pos hj, if_pos hj, if_pos (le_of_lt hj)]
  · rw [if_neg hj, if_neg hj]

theorem swap_some_spec {dfa : Dfa} {d : ℕ → ℕ → Bool} {j i : ℕ}
    (h : swapMapF dfa d j = some i) :
    j < dfa.states.length ∧ i < j ∧ d i j = false ∧ ∀ k, k < i → d k j = true := by
  rw [swapMapF_eq] at h
  by_cases hj : j < dfa.states.length
  · rw [if_pos hj] at h
    obtain ⟨h1, h2, h3⟩ := find?_range_some.mp h
    refine ⟨hj, h1, by simpa using h2, ?_⟩
    intro k hk
    have := h3 k hk
    simpa using this
  · rw [if_neg hj] at h
    cases h

theorem swap_none_spec {dfa : Dfa} {d : ℕ → ℕ → Bool} {j : ℕ}
    (hj : j < dfa.states.length) (h : swapMapF dfa d j = none) :
    ∀ i, i < j → d i j = true := by
  rw [swapMapF_eq, if_pos hj] at h
  intro i hi
  have := find?_range_none.mp h i hi
  simpa using this

theorem swap_zero {dfa : Dfa} {d : ℕ → ℕ → Bool}
    (h0 : 0 < dfa.states.length) : swapMapF dfa d 0 = none := by
  rw [swapMapF_eq, if_pos h0, List.range_zero]
  rfl

theorem swap_rep_unmerged {dfa : Dfa} (hwf : dfa.Wf) {j i : ℕ}
    (h : swapMapF dfa (distTable dfa) j = some i) :
    swapMapF dfa (distTable dfa) i = none := by
  obtain ⟨hj, hij, hd, hmin⟩ := swap_some_spec h
  cases hsi : swapMapF dfa (distTable dfa) i with
  | none => rfl
  | some i2 =>
      exfalso
      obtain ⟨hi, hi2, hd2, _⟩ := swap_some_spec hsi
      have hu1 : URel dfa (distTable dfa) i2 i :=
        ⟨by omega, by omega, Or.inr (Or.inl ⟨hi2, hd2⟩)⟩
      have hu2 : URel dfa (distTable dfa) i j :=
        ⟨by omega, hj, Or.inr (Or.inl ⟨hij, hd⟩)⟩
      obtain ⟨_, _, hdisj⟩ := urel_trans hwf hu1 hu2
      rcases hdisj with heq | ⟨hlt, hm⟩ | ⟨hlt, hm⟩
      · omega
      · rw [hmin i2 (by omega)] at hm
        cases hm
      · omega

theorem cntU_succ {sm : ℕ → Option ℕ} {k : ℕ} :
    cntU sm (k + 1) = cntU sm k + (if (sm k).isNone = true then 1 else 0) := by
  rw [cntU, cntU, List.range_succ, List.filter_append, List.length_append]
  congr 1
  by_cases h : (sm k).isNone = true
  · rw [if_pos h]
    simp [List.filter, h]
  · rw [if_neg h]
    have h2 : (sm k).isNone = false := by
      simp only [Bool.not_eq_true] at h
      exact h
    simp [List.filter, h2]

theorem cntU_le {sm : ℕ → Option ℕ} {k : ℕ} : cntU sm k ≤ k := by
  have := List.length_filter_le (fun s => (sm s).isNone) (List.range k)
  simpa [cntU] using this

theorem filter_range_getD {pred : ℕ → Bool} {k n : ℕ} (hk : k < n)
    (hpk : pred k = true) :
    ((List.range n).filter pred).getD (((List.range k).filter pred).length) 0 = k := by
  have hsplit : List.range n = List.range k ++ (List.range (n - k)).map (k + ·) := by
    have : n = k + (n - k) := by omega
    rw [this, List.range_add]
    have : k + (n - k) - k = n - k := by omega
    rw [this]
  rw [hsplit, List.filter_append]
  have h1 : n - k = (n - k - 1) + 1 := by omega
  rw [h1, List.range_succ_eq_map, List.map_cons]
  have h2 : k + 0 = k := by omega
  rw [h2, List.filter_cons_of_pos hpk]
  set l1 := (List.range k).filter pred
  set l2 := ((List.range (n - k - 1)).map Nat.succ).map (k + ·)
  have hlen : l1.length < (l1 ++ k :: l2.filter pred).length := by
    rw [List.length_append, List.length_cons]
    omega
  rw [List.getD_eq_getElem _ _ hlen]
  rw [List.getElem_append_right (le_refl _)]
  simp

theorem cntU_lt_of_pred {sm : ℕ → Option ℕ} {k n : ℕ} (hk : k < n)
    (hpk : (sm k).isNone = true) : cntU sm k < cntU sm n := by
  have hsplit : List.range n = List.range k ++ (List.range (n - k)).map (k + ·) := by
    have : n = k + (n - k) := by omega
    rw [this, List.range_add]
    have : k + (n - k) - k = n - k := by omega
    rw [this]
  rw [cntU, cntU, hsplit, List.filter_append, List.length_append]
  have h1 : n - k = (n - k - 1) + 1 := by omega
  rw [h1, List.range_succ_eq_map, List.map_cons]
  have h2 : k + 0 = k := by omega
  rw [h2]
  simp only [List.filter_cons, hpk, if_true, List.length_cons]
  omega

end SwapMap

section ListHelpers

theorem list_getD_set_ne {α : Type} {l : List α} {i p : ℕ} {a d : α} (h : i ≠ p) :
    (l.set i a).getD p d = l.getD p d := by
  rw [List.getD_eq_getElem?_getD, List.getD_eq_getElem?_getD, List.getElem?_set_ne h]

theorem list_getD_set_self {α : Type} {l : List α} {i : ℕ} {a d : α}
    (h : i < l.length) : (l.set i a).getD i d = a := by
  rw [List.getD_eq_getElem?_getD, List.getElem?_set_self h]
  rfl

theorem list_getD_take {α : Type} {l : List α} {m p : ℕ} {d : α} (h : p < m) :
    (l.take m).getD p d = l.getD p d := by
  rw [List.getD_eq_getElem?_getD, List.getD_eq_getElem?_getD, List.getElem?_take_of_lt h]

end ListHelpers

section RepsList

theorem cntU_add_some {sm : ℕ → Option ℕ} :
    ∀ n, cntU sm n + ((List.range n).filter (fun j => (sm j).isSome)).length = n := by
  intro n
  induction n with
  | zero => rfl
  | succ k ih =>
      rw [cntU, List.range_succ, List.filter_append, List.filter_append,
        List.length_append, List.length_append]
      cases hsk : sm k with
      | none =>
          have h1 : (sm k).isNone = true := by rw [hsk]; rfl
          have h2 : (sm k).isSome = false := by rw [hsk]; rfl
          have h3 : ((List.filter (fun s => (sm s).isNone) [k])).length = 1 := by
            simp [List.filter_cons, h1]
          have h4 : ((List.filter (fun j => (sm j).isSome) [k])).length = 0 := by
            simp [List.filter_cons, h2]
          rw [h3, h4]
          rw [cntU] at ih
          omega
      | some i =>
          have h1 : (sm k).isNone = false := by rw [hsk]; rfl
          have h2 : (sm k).isSome = true := by rw [hsk]; rfl
          have h3 : ((List.filter (fun s => (sm s).isNone) [k])).length = 0 := by
            simp [List.filter_cons, h1]
          have h4 : ((List.filter (fun j => (sm j).isSome) [k])).length = 1 := by
            simp [List.filter_cons, h2]
          rw [h3, h4]
          rw [cntU] at ih
          omega

theorem minsize_eq {dfa : Dfa} {sm : ℕ → Option ℕ} :
    dfa.states.length -
        ((List.range dfa.states.length).filter (fun j => (sm j).isSome)).length =
      cntU sm dfa.states.length := by
  have := @cntU_add_some sm dfa.states.length
  omega

theorem repsList_length {dfa : Dfa} {sm : ℕ → Option ℕ} :
    (repsList dfa sm).length = cntU sm dfa.states.length :=
  rfl

theorem repsList_mem {dfa : Dfa} {sm : ℕ → Option ℕ} {p : ℕ}
    (hp : p < cntU sm dfa.states.length) :
    (repsList dfa sm).getD p 0 < dfa.states.length ∧
      sm ((repsList dfa sm).getD p 0) = none := by
  have hlen : p < (repsList dfa sm).length := by rw [repsList_length]; exact hp
  rw [List.getD_eq_getElem _ _ hlen]
  have hmem : (repsList dfa sm).get ⟨p, hlen⟩ ∈ repsList dfa sm := List.get_mem _ _ hlen
  have hmem2 : (repsList dfa sm).get ⟨p, hlen⟩ ∈
      (List.range dfa.states.length).filter (fun s => (sm s).isNone) := hmem
  rw [List.mem_filter, List.mem_range] at hmem2
  refine ⟨hmem2.1, ?_⟩
  have := hmem2.2
  simpa [Option.isNone_iff_eq_none] using this

theorem cntU_getD {dfa : Dfa} {sm : ℕ → Option ℕ} {k : ℕ}
    (hk : k < dfa.states.length) (hsk : sm k = none) :
    (repsList dfa sm).getD (cntU sm k) 0 = k := by
  have hpk : (fun s => (sm s).isNone) k = true := by
    show (sm k).isNone = true
    rw [hsk]
    rfl
  exact filter_range_getD hk hpk

theorem repsList_nodup {dfa : Dfa} {sm : ℕ → Option ℕ} :
    (repsList dfa sm).Nodup :=
  (List.nodup_range _).filter _

theorem nodup_getD_inj {l : List ℕ} (hnd : l.Nodup) {i j : ℕ}
    (hi : i < l.length) (hj : j < l.length) (h : l.getD i 0 = l.getD j 0) :
    i = j := by
  rw [List.getD_eq_getElem _ _ hi, List.getD_eq_getElem _ _ hj] at h
  exact (List.Nodup.getElem_inj_iff hnd).mp h

theorem getD_cntU {dfa : Dfa} {sm : ℕ → Option ℕ} {p : ℕ}
    (hp : p < cntU sm dfa.states.length) :
    cntU sm ((repsList dfa sm).getD p 0) = p := by
  obtain ⟨hk, hsk⟩ := repsList_mem hp
  have hlt : cntU sm ((repsList dfa sm).getD p 0) < cntU sm dfa.states.length :=
    cntU_lt_of_pred hk (by rw [hsk]; rfl)
  have h1 : (repsList dfa sm).getD (cntU sm ((repsList dfa sm).getD p 0)) 0 =
      (repsList dfa sm).getD p 0 := cntU_getD hk hsk
  have hl1 : cntU sm ((repsList dfa sm).getD p 0) < (repsList dfa sm).length := by
    rw [repsList_length]; exact hlt
  have hl2 : p < (repsList dfa sm).length := by rw [repsList_length]; exact hp
  exact nodup_getD_inj repsList_nodup hl1 hl2 h1

end RepsList

section CompactSpec

theorem cfold_succ {dfa : Dfa} {sm : ℕ → Option ℕ} {k : ℕ} :
    cfold dfa sm (k + 1) = compactStep sm (cfold dfa sm k) k := by
  rw [cfold, cfold, List.range_succ, List.foldl_append]
  rfl

theorem compactStep_none {sm : ℕ → Option ℕ} {st : List DState × (ℕ → ℕ) × ℕ} {k : ℕ}
    (hsk : sm k = none) :
    compactStep sm st k =
      ((if k ≠ st.2.2 then st.1.set st.2.2 { st.1.getD k default with id := st.2.2 }
        else st.1),
       (fun x => if x = k then st.2.2 else st.2.1 x), st.2.2 + 1) := by
  rw [compactStep, hsk]

theorem compactStep_some {sm : ℕ → Option ℕ} {st : List DState × (ℕ → ℕ) × ℕ} {k i : ℕ}
    (hsk : sm k = some i) :
    compactStep sm st k =
      (st.1, (fun x => if x = k then st.2.1 i else st.2.1 x), st.2.2) := by
  rw [compactStep, hsk]

theorem dstate_set_id_self {st : DState} : { st with id := st.id } = st := by
  cases st
  rfl

theorem compactFold_inv {dfa : Dfa} {sm : ℕ → Option ℕ}
    (hid : ∀ p, p < dfa.states.length → (dfa.stateF p).id = p)
    (hlt : ∀ s i, sm s = some i → i < s)
    (hrep : ∀ s i, sm s = some i → sm i = none) :
    ∀ k, k ≤ dfa.states.length →
      (cfold dfa sm k).2.2 = cntU sm k ∧
      (cfold dfa sm k).1.length = dfa.states.length ∧
      (∀ s, s < k → (cfold dfa sm k).2.1 s = cntU sm (repOf sm s)) ∧
      (∀ p, p < cntU sm k →
        (cfold dfa sm k).1.getD p default =
          { dfa.stateF ((repsList dfa sm).getD p 0) with id := p }) ∧
      (∀ p, cntU sm k ≤ p → p < dfa.states.length →
        (cfold dfa sm k).1.getD p default = dfa.stateF p) := by
  intro k
  induction k with
  | zero =>
      intro _
      refine ⟨rfl, rfl, ?_, ?_, ?_⟩
      · intro s hs
        omega
      · intro p hp
        have h0 : cntU sm 0 = 0 := rfl
        omega
      · intro p _ _
        rfl
  | succ k ih =>
      intro hk1
      have hk : k < dfa.states.length := by omega
      obtain ⟨i1, i2, i3, i4, i5⟩ := ih (by omega)
      have hstep : cfold dfa sm (k + 1) = compactStep sm (cfold dfa sm k) k := cfold_succ
      have hcle : cntU sm k ≤ k := cntU_le
      cases hsk : sm k with
      | none =>
          have hcnt : cntU sm (k + 1) = cntU sm k + 1 := by
            rw [cntU_succ, hsk]
            rfl
          have hdc : (cfold dfa sm k).2.2 = cntU sm k := i1
          have hrk : (repsList dfa sm).getD (cntU sm k) 0 = k := cntU_getD hk hsk
          have hstates : (cfold dfa sm (k + 1)).1 =
              (if k ≠ (cfold dfa sm k).2.2 then
                (cfold dfa sm k).1.set (cfold dfa sm k).2.2
                  { (cfold dfa sm k).1.getD k default with id := (cfold dfa sm k).2.2 }
              else (cfold dfa sm k).1) := by
            rw [hstep, compactStep_none hsk]
          have hrm : (cfold dfa sm (k + 1)).2.1 =
              (fun x => if x = k then (cfold dfa sm k).2.2 else (cfold dfa sm k).2.1 x) := by
            rw [hstep, compactStep_none hsk]
          have hdctr : (cfold dfa sm (k + 1)).2.2 = (cfold dfa sm k).2.2 + 1 := by
            rw [hstep, compactStep_none hsk]
          refine ⟨?_, ?_, ?_, ?_, ?_⟩
          · rw [hdctr]
            omega
          · rw [hstates]
            by_cases hne : k ≠ (cfold dfa sm k).2.2
            · rw [if_pos hne, List.length_set]
              exact i2
            · rw [if_neg hne]
              exact i2
          · intro s hs
            rw [hrm]
            show (if s = k then (cfold dfa sm k).2.2 else (cfold dfa sm k).2.1 s) =
              cntU sm (repOf sm s)
            by_cases hs2 : s = k
            · rw [if_pos hs2, hs2]
              have h3 : repOf sm k = k := by
                rw [repOf, hsk]
              rw [h3, hdc]
            · rw [if_neg hs2]
              exact i3 s (by omega)
          · intro p hp
            rw [hcnt] at hp
            rw [hstates]
            by_cases hpk : p < cntU sm k
            · by_cases hne : k ≠ (cfold dfa sm k).2.2
              · rw [if_pos hne]
                rw [list_getD_set_ne (show (cfold dfa sm k).2.2 ≠ p by omega)]
                exact i4 p hpk
              · rw [if_neg hne]
                exact i4 p hpk
            · have hpe : p = cntU sm k := by omega
              have h6 : (repsList dfa sm).getD p 0 = k := by
                rw [hpe]
                exact hrk
              by_cases hne : k ≠ (cfold dfa sm k).2.2
              · rw [if_pos hne]
                have hb : (cfold dfa sm k).2.2 < (cfold dfa sm k).1.length := by
                  rw [i2]
                  omega
                have hpd : p = (cfold dfa sm k).2.2 := by omega
                rw [hpd, list_getD_set_self hb]
                have h7 : (repsList dfa sm).getD ((cfold dfa sm k).2.2) 0 = k := by
                  rw [hdc]
                  exact hrk
                rw [i5 k (by omega) hk, h7]
              · rw [if_neg hne]
                have hke : k = (cfold dfa sm k).2.2 := not_not.mp hne
                have hpk2 : p = k := by omega
                have hL : (cfold dfa sm k).1.getD p default = dfa.stateF k := by
                  rw [hpk2]
                  exact i5 k (by omega) hk
                rw [hL, h6]
                have h8 : (dfa.stateF k).id = p := by
                  rw [hid k hk]
                  omega
                rw [← h8]
          · intro p hp1 hp2
            rw [hcnt] at hp1
            rw [hstates]
            by_cases hne : k ≠ (cfold dfa sm k).2.2
            · rw [if_pos hne]
              rw [list_getD_set_ne (show (cfold dfa sm k).2.2 ≠ p by omega)]
              exact i5 p (by omega) hp2
            · rw [if_neg hne]
              exact i5 p (by omega) hp2
      | some i =>
          have hi : i < k := hlt k i hsk
          have hcnt : cntU sm (k + 1) = cntU sm k := by
            rw [cntU_succ, hsk]
            rfl
          have hstates : (cfold dfa sm (k + 1)).1 = (cfold dfa sm k).1 := by
            rw [hstep, compactStep_some hsk]
          have hrm : (cfold dfa sm (k + 1)).2.1 =
              (fun x => if x = k then (cfold dfa sm k).2.1 i else (cfold dfa sm k).2.1 x) := by
            rw [hstep, compactStep_some hsk]
          have hdctr : (cfold dfa sm (k + 1)).2.2 = (cfold dfa sm k).2.2 := by
            rw [hstep, compactStep_some hsk]
          refine ⟨?_, ?_, ?_, ?_, ?_⟩
          · rw [hdctr, hcnt]
            exact i1
          · rw [hstates]
            exact i2
          · intro s hs
            rw [hrm]
            show (if s = k then (cfold dfa sm k).2.1 i else (cfold dfa sm k).2.1 s) =
              cntU sm (repOf sm s)
            by_cases hs2 : s = k
            · rw [if_pos hs2, hs2]
              have h1 : (cfold dfa sm k).2.1 i = cntU sm (repOf sm i) := i3 i (by omega)
              have h2 : repOf sm i = i := by
                rw [repOf, hrep k i hsk]
              have h3 : repOf sm k = i := by
                rw [repOf, hsk]
              rw [h3, h1, h2]
            · rw [if_neg hs2]
              exact i3 s (by omega)
          · intro p hp
            rw [hcnt] at hp
            rw [hstates]
            exact i4 p hp
          · intro p hp1 hp2
            rw [hcnt] at hp1
            rw [hstates]
            exact i5 p (by omega) hp2

end CompactSpec

section RewriteSpec

theorem remapFold_succ {rm : ℕ → ℕ} {t0 : List (Option ℕ)} {k : ℕ} :
    remapFold rm t0 (k + 1) =
      (match (remapFold rm t0 k).getD k none with
      | some n => (remapFold rm t0 k).set k (some (rm n))
      | none => remapFold rm t0 k) := by
  rw [remapFold, remapFold, List.range_succ, List.foldl_append]
  rfl

theorem remapFold_inv {rm : ℕ → ℕ} {t0 : List (Option ℕ)} :
    ∀ k, (remapFold rm t0 k).length = t0.length ∧
      ∀ c, (remapFold rm t0 k).getD c none =
        if c < k then (t0.getD c none).map rm else t0.getD c none := by
  intro k
  induction k with
  | zero =>
      refine ⟨rfl, ?_⟩
      intro c
      rw [if_neg (by omega)]
      rfl
  | succ k ih =>
      obtain ⟨ih1, ih2⟩ := ih
      have hk : (remapFold rm t0 k).getD k none = t0.getD k none := by
        rw [ih2 k, if_neg (by omega)]
      cases h0 : t0.getD k none with
      | none =>
          have hstep : remapFold rm t0 (k + 1) = remapFold rm t0 k := by
            rw [remapFold_succ, hk, h0]
          rw [hstep]
          refine ⟨ih1, ?_⟩
          intro c
          by_cases hc : c < k + 1
          · rw [if_pos hc]
            by_cases hc2 : c < k
            · rw [ih2 c, if_pos hc2]
            · have hce : c = k := by omega
              rw [hce, hk, h0]
              rfl
          · rw [if_neg hc, ih2 c, if_neg (by omega)]
      | some n =>
          have hb : k < (remapFold rm t0 k).length := by
            by_contra hcon
            have hnone : (remapFold rm t0 k).getD k none = none :=
              List.getD_eq_default _ _ (by omega)
            rw [hk, h0] at hnone
            cases hnone
          have hstep : remapFold rm t0 (k + 1) =
              (remapFold rm t0 k).set k (some (rm n)) := by
            rw [remapFold_succ, hk, h0]
          rw [hstep]
          refine ⟨?_, ?_⟩
          · rw [List.length_set]
            exact ih1
          · intro c
            by_cases hc : c = k
            · rw [hc, list_getD_set_self hb, if_pos (by omega), h0]
              rfl
            · rw [list_getD_set_ne (by omega)]
              by_cases hc2 : c < k
              · rw [ih2 c, if_pos hc2, if_pos (by omega)]
              · rw [ih2 c, if_neg (by omega), if_neg (by omega)]

theorem remapState_t {rm : ℕ → ℕ} {st : DState} :
    (remapState rm st).t = remapFold rm st.t 256 := by
  rw [remapState]

theorem remapState_t_getD {rm : ℕ → ℕ} {st : DState} {c : ℕ} (hc : c < 256) :
    (remapState rm st).t.getD c none = (st.t.getD c none).map rm := by
  rw [remapState_t]
  have h := (@remapFold_inv rm st.t 256).2 c
  rw [if_pos hc] at h
  exact h

theorem remapState_t_length {rm : ℕ → ℕ} {st : DState} :
    (remapState rm st).t.length = st.t.length := by
  rw [remapState_t]
  exact (remapFold_inv 256).1

theorem remapState_id {rm : ℕ → ℕ} {st : DState} :
    (remapState rm st).id = st.id := by
  rw [remapState]

theorem remapState_accept {rm : ℕ → ℕ} {st : DState} :
    (remapState rm st).accept = st.accept := by
  rw [remapState]

theorem rewriteLoop_length {rm : ℕ → ℕ} {minsize : ℕ} :
    ∀ fuel i sts, (rewriteLoop rm minsize fuel i sts).length = sts.length := by
  intro fuel
  induction fuel with
  | zero =>
      intro i sts
      rfl
  | succ f ih =>
      intro i sts
      rw [rewriteLoop]
      by_cases h : (sts.getD i default).id < minsize
      · rw [if_pos h, ih, List.length_set]
      · rw [if_neg h]

theorem rewriteLoop_getD {rm : ℕ → ℕ} {minsize m : ℕ} :
    ∀ fuel i sts, i ≤ m → m - i < fuel → m ≤ sts.length →
      (∀ p, i ≤ p → p < m → (sts.getD p default).id < minsize) →
      ¬ ((sts.getD m default).id < minsize) →
      ∀ q, (rewriteLoop rm minsize fuel i sts).getD q default =
        if i ≤ q ∧ q < m then remapState rm (sts.getD q default)
        else sts.getD q default := by
  intro fuel
  induction fuel with
  | zero =>
      intro i sts h1 h2
      omega
  | succ f ih =>
      intro i sts hi hf hlen hbelow hstop q
      by_cases him : i = m
      · subst him
        rw [rewriteLoop, if_neg hstop, if_neg (by omega)]
      · have hlt : i < m := by omega
        have hcond : (sts.getD i default).id < minsize := hbelow i (le_refl i) hlt
        rw [rewriteLoop, if_pos hcond]
        have hib : i < sts.length := by omega
        set sts2 := sts.set i (remapState rm (sts.getD i default)) with hsts2
        have hlen2 : m ≤ sts2.length := by
          rw [hsts2, List.length_set]
          exact hlen
        have hbelow2 : ∀ p, i + 1 ≤ p → p < m → (sts2.getD p default).id < minsize := by
          intro p hp1 hp2
          rw [hsts2, list_getD_set_ne (by omega)]
          exact hbelow p (by omega) hp2
        have hstop2 : ¬ ((sts2.getD m default).id < minsize) := by
          rw [hsts2, list_getD_set_ne (by omega)]
          exact hstop
        have hres := ih (i + 1) sts2 (by omega) (by omega) hlen2 hbelow2 hstop2 q
        rw [hres]
        by_cases hq : q = i
        · subst hq
          rw [if_neg (by omega), if_pos ⟨le_refl q, hlt⟩, hsts2,
            list_getD_set_self hib]
        · by_cases hq2 : i + 1 ≤ q ∧ q < m
          · rw [if_pos hq2, if_pos ⟨by omega, hq2.2⟩, hsts2,
              list_getD_set_ne (by omega)]
          · rw [if_neg hq2, if_neg (by omega), hsts2, list_getD_set_ne (by omega)]

end RewriteSpec

section MinimizeFacts

theorem minimize_all_none {dfa : Dfa}
    (hall : (List.range dfa.states.length).all
      (fun j => (swapMapF dfa (distTable dfa) j).isNone) = true) :
    dfa.minimize = dfa := by
  simp only [Dfa.minimize]
  rw [if_pos hall]

theorem classOf_all_none {dfa : Dfa}
    (hall : (List.range dfa.states.length).all
      (fun j => (swapMapF dfa (distTable dfa) j).isNone) = true) {s : ℕ} :
    classOf dfa s = s := by
  simp only [classOf]
  rw [if_pos hall]

theorem classOf_not_all_none {dfa : Dfa}
    (hne : ¬ ((List.range dfa.states.length).all
      (fun j => (swapMapF dfa (distTable dfa) j).isNone) = true)) {s : ℕ} :
    classOf dfa s = (compactAll dfa (swapMapF dfa (distTable dfa))).2.1 s := by
  simp only [classOf]
  rw [if_neg hne]

theorem not_all_none_some {dfa : Dfa}
    (hne : ¬ ((List.range dfa.states.length).all
      (fun j => (swapMapF dfa (distTable dfa) j).isNone) = true)) :
    ∃ j, j < dfa.states.length ∧
      (swapMapF dfa (distTable dfa) j).isSome = true := by
  rw [List.all_eq_true] at hne
  push_neg at hne
  obtain ⟨j, hj, hnone⟩ := hne
  refine ⟨j, List.mem_range.mp hj, ?_⟩
  cases h : swapMapF dfa (distTable dfa) j with
  | none =>
      exfalso
      apply hnone
      rw [h]
      rfl
  | some i => rfl

theorem ms_lt_of_not_all {dfa : Dfa}
    (hne : ¬ ((List.range dfa.states.length).all
      (fun j => (swapMapF dfa (distTable dfa) j).isNone) = true)) :
    cntU (swapMapF dfa (distTable dfa)) dfa.states.length < dfa.states.length := by
  obtain ⟨j, hj, hsome⟩ := not_all_none_some hne
  have hsum := @cntU_add_some (swapMapF dfa (distTable dfa)) dfa.states.length
  have hmem : j ∈ (List.range dfa.states.length).filter
      (fun j => (swapMapF dfa (distTable dfa) j).isSome) :=
    List.mem_filter.mpr ⟨List.mem_range.mpr hj, hsome⟩
  have hpos : 0 < ((List.range dfa.states.length).filter
      (fun j => (swapMapF dfa (distTable dfa) j).isSome)).length :=
    List.length_pos_of_mem hmem
  omega

theorem ms_pos {dfa : Dfa} (h0 : 0 < dfa.states.length) :
    0 < cntU (swapMapF dfa (distTable dfa)) dfa.states.length := by
  have h1 : swapMapF dfa (distTable dfa) 0 = none := swap_zero h0
  have h2 := @cntU_lt_of_pred (swapMapF dfa (distTable dfa)) 0 dfa.states.length h0
    (by rw [h1]; rfl)
  have h3 : cntU (swapMapF dfa (distTable dfa)) 0 = 0 := rfl
  omega

theorem minimize_else_eq {dfa : Dfa}
    (hne : ¬ ((List.range dfa.states.length).all
      (fun j => (swapMapF dfa (distTable dfa) j).isNone) = true)) :
    dfa.minimize =
      { states := (rewriteLoop (compactAll dfa (swapMapF dfa (distTable dfa))).2.1
          (cntU (swapMapF dfa (distTable dfa)) dfa.states.length)
          dfa.states.length 0
          (compactAll dfa (swapMapF dfa (distTable dfa))).1).take
          (cntU (swapMapF dfa (distTable dfa)) dfa.states.length),
        state_num := dfa.state_num } := by
  simp only [Dfa.minimize]
  rw [if_neg hne, minsize_eq]

theorem minimize_else_spec {dfa : Dfa} (hwf : dfa.Wf)
    (hne : ¬ ((List.range dfa.states.length).all
      (fun j => (swapMapF dfa (distTable dfa) j).isNone) = true)) :
    dfa.minimize.states.length =
      cntU (swapMapF dfa (distTable dfa)) dfa.states.length ∧
    ∀ p, p < cntU (swapMapF dfa (distTable dfa)) dfa.states.length →
      dfa.minimize.stateF p =
        remapState (compactAll dfa (swapMapF dfa (distTable dfa))).2.1
          { dfa.stateF ((repsList dfa (swapMapF dfa (distTable dfa))).getD p 0) with
            id := p } := by
  have hid : ∀ p, p < dfa.states.length → (dfa.stateF p).id = p := hwf.2.1
  have hlt : ∀ s i, swapMapF dfa (distTable dfa) s = some i → i < s :=
    fun s i h => (swap_some_spec h).2.1
  have hrep : ∀ s i, swapMapF dfa (distTable dfa) s = some i →
      swapMapF dfa (distTable dfa) i = none := fun s i h => swap_rep_unmerged hwf h
  obtain ⟨c1, c2, c3, c4, c5⟩ :=
    compactFold_inv hid hlt hrep dfa.states.length (le_refl _)
  have c2' : (compactAll dfa (swapMapF dfa (distTable dfa))).1.length =
    dfa.states.length := c2
  have c4' : ∀ p, p < cntU (swapMapF dfa (distTable dfa)) dfa.states.length →
      (compactAll dfa (swapMapF dfa (distTable dfa))).1.getD p default =
        { dfa.stateF ((repsList dfa (swapMapF dfa (distTable dfa))).getD p 0) with
          id := p } := c4
  have c5' : ∀ p, cntU (swapMapF dfa (distTable dfa)) dfa.states.length ≤ p →
      p < dfa.states.length →
      (compactAll dfa (swapMapF dfa (distTable dfa))).1.getD p default =
        dfa.stateF p := c5
  have hms := ms_lt_of_not_all hne
  have hbelow : ∀ q, 0 ≤ q →
      q < cntU (swapMapF dfa (distTable dfa)) dfa.states.length →
      (((compactAll dfa (swapMapF dfa (distTable dfa))).1).getD q default).id <
        cntU (swapMapF dfa (distTable dfa)) dfa.states.length := by
    intro q _ hq
    rw [c4' q hq]
    exact hq
  have hstop : ¬ ((((compactAll dfa (swapMapF dfa (distTable dfa))).1).getD
      (cntU (swapMapF dfa (distTable dfa)) dfa.states.length) default).id <
        cntU (swapMapF dfa (distTable dfa)) dfa.states.length) := by
    rw [c5' _ (le_refl _) hms, hid _ hms]
    omega
  have hRL := @rewriteLoop_getD
    ((compactAll dfa (swapMapF dfa (distTable dfa))).2.1)
    (cntU (swapMapF dfa (distTable dfa)) dfa.states.length)
    (cntU (swapMapF dfa (distTable dfa)) dfa.states.length)
    dfa.states.length 0
    ((compactAll dfa (swapMapF dfa (distTable dfa))).1)
    (by omega) (by omega) (by rw [c2']; omega) hbelow hstop
  have hRLlen := @rewriteLoop_length
    ((compactAll dfa (swapMapF dfa (distTable dfa))).2.1)
    (cntU (swapMapF dfa (distTable dfa)) dfa.states.length)
    dfa.states.length 0
    ((compactAll dfa (swapMapF dfa (distTable dfa))).1)
  constructor
  · rw [minimize_else_eq hne]
    show ((rewriteLoop (compactAll dfa (swapMapF dfa (distTable dfa))).2.1
          (cntU (swapMapF dfa (distTable dfa)) dfa.states.length)
          dfa.states.length 0
          (compactAll dfa (swapMapF dfa (distTable dfa))).1).take
          (cntU (swapMapF dfa (distTable dfa)) dfa.states.length)).length =
      cntU (swapMapF dfa (distTable dfa)) dfa.states.length
    rw [List.length_take, hRLlen, c2']
    omega
  · intro p hp
    rw [minimize_else_eq hne]
    show ((rewriteLoop (compactAll dfa (swapMapF dfa (distTable dfa))).2.1
          (cntU (swapMapF dfa (distTable dfa)) dfa.states.length)
          dfa.states.length 0
          (compactAll dfa (swapMapF dfa (distTable dfa))).1).take
          (cntU (swapMapF dfa (distTable dfa)) dfa.states.length)).getD p default =
      remapState (compactAll dfa (swapMapF dfa (distTable dfa))).2.1
        { dfa.stateF ((repsList dfa (swapMapF dfa (distTable dfa))).getD p 0) with
          id := p }
    rw [list_getD_take hp, hRL p, if_pos ⟨Nat.zero_le p, hp⟩, c4' p hp]

theorem repOf_eq_none {sm : ℕ → Option ℕ} {s : ℕ} (h : sm s = none) :
    repOf sm s = s := by
  rw [repOf, h]

theorem repOf_eq_some {sm : ℕ → Option ℕ} {s i : ℕ} (h : sm s = some i) :
    repOf sm s = i := by
  rw [repOf, h]

theorem repOf_lt {dfa : Dfa} {s : ℕ} (hs : s < dfa.states.length) :
    repOf (swapMapF dfa (distTable dfa)) s < dfa.states.length := by
  cases h : swapMapF dfa (distTable dfa) s with
  | none =>
      rw [repOf_eq_none h]
      exact hs
  | some i =>
      rw [repOf_eq_some h]
      have := swap_some_spec h
      omega

theorem repOf_none {dfa : Dfa} (hwf : dfa.Wf) (s : ℕ) :
    swapMapF dfa (distTable dfa) (repOf (swapMapF dfa (distTable dfa)) s) = none := by
  cases h : swapMapF dfa (distTable dfa) s with
  | none =>
      rw [repOf_eq_none h]
      exact h
  | some i =>
      rw [repOf_eq_some h]
      exact swap_rep_unmerged hwf h

theorem urel_repOf {dfa : Dfa} {s : ℕ} (hs : s < dfa.states.length) :
    URel dfa (distTable dfa) s (repOf (swapMapF dfa (distTable dfa)) s) := by
  cases h : swapMapF dfa (distTable dfa) s with
  | none =>
      rw [repOf_eq_none h]
      exact urel_refl hs
  | some i =>
      rw [repOf_eq_some h]
      obtain ⟨hsn, his, hd, _⟩ := swap_some_spec h
      exact ⟨hs, by omega, Or.inr (Or.inr ⟨his, hd⟩)⟩

theorem rm_lt_ms {dfa : Dfa} (hwf : dfa.Wf) {s : ℕ} (hs : s < dfa.states.length) :
    (compactAll dfa (swapMapF dfa (distTable dfa))).2.1 s <
      cntU (swapMapF dfa (distTable dfa)) dfa.states.length ∧
    (repsList dfa (swapMapF dfa (distTable dfa))).getD
        ((compactAll dfa (swapMapF dfa (distTable dfa))).2.1 s) 0 =
      repOf (swapMapF dfa (distTable dfa)) s := by
  have hid : ∀ p, p < dfa.states.length → (dfa.stateF p).id = p := hwf.2.1
  have hlt : ∀ s i, swapMapF dfa (distTable dfa) s = some i → i < s :=
    fun s i h => (swap_some_spec h).2.1
  have hrep : ∀ s i, swapMapF dfa (distTable dfa) s = some i →
      swapMapF dfa (distTable dfa) i = none := fun s i h => swap_rep_unmerged hwf h
  obtain ⟨c1, c2, c3, c4, c5⟩ :=
    compactFold_inv hid hlt hrep dfa.states.length (le_refl _)
  have c3' : ∀ s, s < dfa.states.length →
      (compactAll dfa (swapMapF dfa (distTable dfa))).2.1 s =
        cntU (swapMapF dfa (distTable dfa))
          (repOf (swapMapF dfa (distTable dfa)) s) := c3
  have hr := repOf_lt hs
  have hrn := repOf_none hwf s
  have hclt : cntU (swapMapF dfa (distTable dfa))
      (repOf (swapMapF dfa (distTable dfa)) s) <
      cntU (swapMapF dfa (distTable dfa)) dfa.states.length :=
    cntU_lt_of_pred hr (by rw [hrn]; rfl)
  refine ⟨?_, ?_⟩
  · rw [c3' s hs]
    exact hclt
  · rw [c3' s hs]
    exact cntU_getD hr hrn

theorem minimize_id {dfa : Dfa} (hwf : dfa.Wf)
    (hne : ¬ ((List.range dfa.states.length).all
      (fun j => (swapMapF dfa (distTable dfa) j).isNone) = true)) {p : ℕ}
    (hp : p < cntU (swapMapF dfa (distTable dfa)) dfa.states.length) :
    (dfa.minimize.stateF p).id = p := by
  rw [(minimize_else_spec hwf hne).2 p hp, remapState_id]

theorem minimize_accept_flag {dfa : Dfa} (hwf : dfa.Wf)
    (hne : ¬ ((List.range dfa.states.length).all
      (fun j => (swapMapF dfa (distTable dfa) j).isNone) = true)) {p : ℕ}
    (hp : p < cntU (swapMapF dfa (distTable dfa)) dfa.states.length) :
    (dfa.minimize.stateF p).accept =
      (dfa.stateF ((repsList dfa (swapMapF dfa (distTable dfa))).getD p 0)).accept := by
  rw [(minimize_else_spec hwf hne).2 p hp, remapState_accept]

theorem minimize_t_length {dfa : Dfa} (hwf : dfa.Wf)
    (hne : ¬ ((List.range dfa.states.length).all
      (fun j => (swapMapF dfa (distTable dfa) j).isNone) = true)) {p : ℕ}
    (hp : p < cntU (swapMapF dfa (distTable dfa)) dfa.states.length) :
    (dfa.minimize.stateF p).t.length = 256 := by
  rw [(minimize_else_spec hwf hne).2 p hp, remapState_t_length]
  exact hwf.2.2.2 _ (repsList_mem hp).1

theorem minimize_dt {dfa : Dfa} (hwf : dfa.Wf)
    (hne : ¬ ((List.range dfa.states.length).all
      (fun j => (swapMapF dfa (distTable dfa) j).isNone) = true)) {p : ℕ}
    (hp : p < cntU (swapMapF dfa (distTable dfa)) dfa.states.length) (c : ℕ) :
    dt dfa.minimize p c =
      (dt dfa ((repsList dfa (swapMapF dfa (distTable dfa))).getD p 0) c).map
        (compactAll dfa (swapMapF dfa (distTable dfa))).2.1 := by
  have hr : (repsList dfa (swapMapF dfa (distTable dfa))).getD p 0 <
      dfa.states.length := (repsList_mem hp).1
  rw [dt, (minimize_else_spec hwf hne).2 p hp]
  by_cases hc : c < 256
  · rw [remapState_t_getD hc]
    rfl
  · have h1 : dt dfa ((repsList dfa (swapMapF dfa (distTable dfa))).getD p 0) c =
        none := dt_high hwf (by omega)
    rw [h1]
    have hlen2 : (remapState (compactAll dfa (swapMapF dfa (distTable dfa))).2.1
        { dfa.stateF ((repsList dfa (swapMapF dfa (distTable dfa))).getD p 0) with
          id := p }).t.length = 256 := by
      rw [remapState_t_length]
      exact hwf.2.2.2 _ hr
    exact List.getD_eq_default _ _ (by omega)

theorem min_walk_corr {dfa : Dfa} (hwf : dfa.Wf)
    (hne : ¬ ((List.range dfa.states.length).all
      (fun j => (swapMapF dfa (distTable dfa) j).isNone) = true)) :
    ∀ (w : List ℕ) {x p : ℕ},
      p < cntU (swapMapF dfa (distTable dfa)) dfa.states.length →
      URel dfa (distTable dfa) x
        ((repsList dfa (swapMapF dfa (distTable dfa))).getD p 0) →
      (walk dfa x w = none ∧ walk dfa.minimize p w = none) ∨
      (∃ a b, walk dfa x w = some a ∧ walk dfa.minimize p w = some b ∧
        b < cntU (swapMapF dfa (distTable dfa)) dfa.states.length ∧
        URel dfa (distTable dfa) a
          ((repsList dfa (swapMapF dfa (distTable dfa))).getD b 0)) := by
  intro w
  induction w with
  | nil =>
      intro x p hp hu
      exact Or.inr ⟨x, p, rfl, rfl, hp, hu⟩
  | cons c cs ih =>
      intro x p hp hu
      rcases @urel_step dfa hwf x
          ((repsList dfa (swapMapF dfa (distTable dfa))).getD p 0) c hu with
        ⟨h1, h2⟩ | ⟨a, y, h1, h2, hay⟩
      · have hmdt : dt dfa.minimize p c = none := by
          rw [minimize_dt hwf hne hp c, h2]
          rfl
        rw [walk_cons_none h1, walk_cons_none hmdt]
        exact Or.inl ⟨rfl, rfl⟩
      · have hmdt : dt dfa.minimize p c =
            some ((compactAll dfa (swapMapF dfa (distTable dfa))).2.1 y) := by
          rw [minimize_dt hwf hne hp c, h2]
          rfl
        have hy : y < dfa.states.length := hay.2.1
        obtain ⟨hrm1, hrm2⟩ := rm_lt_ms hwf hy
        have hua : URel dfa (distTable dfa) a
            ((repsList dfa (swapMapF dfa (distTable dfa))).getD
              ((compactAll dfa (swapMapF dfa (distTable dfa))).2.1 y) 0) := by
          rw [hrm2]
          exact urel_trans hwf hay (urel_repOf hy)
        rw [walk_cons_some h1, walk_cons_some hmdt]
        exact ih hrm1 hua

end MinimizeFacts

section MinimizeClaims

/-- Claim C7: on a DFA whose states are all reachable from state 0,
minimization preserves acceptance: every state s maps to a class
representative classOf(s) inside the minimized DFA with the same accept
flag, and the minimized DFA accepts exactly the strings the original
accepted. -/
theorem claim_C7 (dfa : Dfa) (hwf : dfa.Wf)
    (hreach : ∀ s, s < dfa.states.length → dfa.Reachable s) :
    (∀ s, s < dfa.states.length →
      classOf dfa s < dfa.minimize.states.length ∧
      (dfa.minimize.stateF (classOf dfa s)).accept = (dfa.stateF s).accept) ∧
    (∀ w, dfa.minimize.accept w = dfa.accept w) := by
  by_cases hall : (List.range dfa.states.length).all
      (fun j => (swapMapF dfa (distTable dfa) j).isNone) = true
  · rw [minimize_all_none hall]
    constructor
    · intro s hs
      rw [classOf_all_none hall]
      exact ⟨hs, rfl⟩
    · intro w
      rfl
  · have h0 : 0 < dfa.states.length := hwf.1
    have hmspos := ms_pos h0
    have hlen := (minimize_else_spec hwf hall).1
    constructor
    · intro s hs
      rw [classOf_not_all_none hall]
      obtain ⟨hrm1, hrm2⟩ := rm_lt_ms hwf hs
      constructor
      · rw [hlen]
        exact hrm1
      · rw [minimize_accept_flag hwf hall hrm1, hrm2]
        exact (urel_flags (urel_repOf hs)).symm
    · intro w
      have hsm0 : swapMapF dfa (distTable dfa) 0 = none := swap_zero h0
      have hreps0 : (repsList dfa (swapMapF dfa (distTable dfa))).getD 0 0 = 0 :=
        cntU_getD h0 hsm0
      have hu0 : URel dfa (distTable dfa) 0
          ((repsList dfa (swapMapF dfa (distTable dfa))).getD 0 0) := by
        rw [hreps0]
        exact urel_refl h0
      rcases min_walk_corr hwf hall w hmspos hu0 with
        ⟨h1, h2⟩ | ⟨a, b, h1, h2, hb, hab⟩
      · have e1 : dfa.minimize.accept w = false := by
          cases hacc : dfa.minimize.accept w with
          | false => rfl
          | true =>
              have h3 := accept_eq_walk.mp hacc
              rw [h2] at h3
              simp at h3
        have e2 : dfa.accept w = false := by
          cases hacc : dfa.accept w with
          | false => rfl
          | true =>
              have h3 := accept_eq_walk.mp hacc
              rw [h1] at h3
              simp at h3
        rw [e1, e2]
      · have e1 : dfa.minimize.accept w = true := accept_eq_walk.mpr (by rw [h2]; rfl)
        have e2 : dfa.accept w = true := accept_eq_walk.mpr (by rw [h1]; rfl)
        rw [e1, e2]

/-- Witness for claim C7 at the two-state DFA of the pipeline for the regex
of a single literal, both of whose states are reachable. -/
theorem claim_C7_witness :
    (∀ s, s < dfaAListed.states.length →
      classOf dfaAListed s < dfaAListed.minimize.states.length ∧
      (dfaAListed.minimize.stateF (classOf dfaAListed s)).accept =
        (dfaAListed.stateF s).accept) ∧
    (∀ w, dfaAListed.minimize.accept w = dfaAListed.accept w) :=
  claim_C7 dfaAListed (dfaWf_of_b (by decide))
    (by
      intro s hs
      have hs2 : s < 2 := hs
      rcases s with _ | s
      · exact ⟨[], rfl⟩
      · rcases s with _ | s
        · exact ⟨[97], by decide⟩
        · omega)

theorem all_none_of_no_equiv {dfa : Dfa} (hwf : dfa.Wf)
    (h : ∀ i j, i < j → j < dfa.states.length → ¬ DfaEquiv dfa i j) :
    (List.range dfa.states.length).all
      (fun j => (swapMapF dfa (distTable dfa) j).isNone) = true := by
  rw [List.all_eq_true]
  intro j hj
  show (swapMapF dfa (distTable dfa) j).isNone = true
  cases hs : swapMapF dfa (distTable dfa) j with
  | none => rfl
  | some i =>
      exfalso
      obtain ⟨hjn, hij, hd, _⟩ := swap_some_spec hs
      have hu : URel dfa (distTable dfa) i j :=
        ⟨by omega, hjn, Or.inr (Or.inl ⟨hij, hd⟩)⟩
      exact h i j hij hjn (urel_equiv hwf hu)

theorem minimize_of_no_equiv {dfa : Dfa} (hwf : dfa.Wf)
    (h : ∀ i j, i < j → j < dfa.states.length → ¬ DfaEquiv dfa i j) :
    dfa.minimize = dfa :=
  minimize_all_none (all_none_of_no_equiv hwf h)

theorem minimize_wf {dfa : Dfa} (hwf : dfa.Wf) : dfa.minimize.Wf := by
  by_cases hall : (List.range dfa.states.length).all
      (fun j => (swapMapF dfa (distTable dfa) j).isNone) = true
  · rw [minimize_all_none hall]
    exact hwf
  · have h0 : 0 < dfa.states.length := hwf.1
    have hmspos := ms_pos h0
    have hlen := (minimize_else_spec hwf hall).1
    refine ⟨?_, ?_, ?_, ?_⟩
    · rw [hlen]
      omega
    · intro p hp
      rw [hlen] at hp
      exact minimize_id hwf hall hp
    · intro p c q hp hdt
      rw [hlen] at hp
      rw [minimize_dt hwf hall hp c] at hdt
      cases hy : dt dfa ((repsList dfa (swapMapF dfa (distTable dfa))).getD p 0) c with
      | none =>
          rw [hy] at hdt
          cases hdt
      | some y =>
          rw [hy] at hdt
          have hq : (compactAll dfa (swapMapF dfa (distTable dfa))).2.1 y = q :=
            Option.some.inj hdt
          have hyn : y < dfa.states.length :=
            hwf.2.2.1 _ c y (repsList_mem hp).1 hy
          have hlt := (rm_lt_ms hwf hyn).1
          rw [hlen]
          omega
    · intro p hp
      rw [hlen] at hp
      exact minimize_t_length hwf hall hp

theorem min_equiv_transfer {dfa : Dfa} (hwf : dfa.Wf)
    (hne : ¬ ((List.range dfa.states.length).all
      (fun j => (swapMapF dfa (distTable dfa) j).isNone) = true)) {p q : ℕ}
    (hp : p < cntU (swapMapF dfa (distTable dfa)) dfa.states.length)
    (hq : q < cntU (swapMapF dfa (distTable dfa)) dfa.states.length)
    (heq : DfaEquiv dfa.minimize p q) :
    DfaEquiv dfa ((repsList dfa (swapMapF dfa (distTable dfa))).getD p 0)
      ((repsList dfa (swapMapF dfa (distTable dfa))).getD q 0) := by
  intro w
  have hrp := repsList_mem hp
  have hrq := repsList_mem hq
  have hobs := heq w
  rcases min_walk_corr hwf hne w hp (urel_refl hrp.1) with
    ⟨ep1, ep2⟩ | ⟨a1, b1, ep1, ep2, hb1, hab1⟩ <;>
    rcases min_walk_corr hwf hne w hq (urel_refl hrq.1) with
      ⟨eq1, eq2⟩ | ⟨a2, b2, eq1, eq2, hb2, hab2⟩
  · rw [ep1, eq1]
    show True
    trivial
  · rw [ep2, eq2] at hobs
    exact hobs.elim
  · rw [ep2, eq2] at hobs
    exact hobs.elim
  · rw [ep2, eq2] at hobs
    have hacc : (dfa.minimize.stateF b1).accept = (dfa.minimize.stateF b2).accept :=
      hobs
    rw [ep1, eq1]
    show (dfa.stateF a1).accept = (dfa.stateF a2).accept
    calc (dfa.stateF a1).accept
        = (dfa.stateF ((repsList dfa (swapMapF dfa (distTable dfa))).getD b1 0)).accept :=
          urel_flags hab1
      _ = (dfa.minimize.stateF b1).accept := (minimize_accept_flag hwf hne hb1).symm
      _ = (dfa.minimize.stateF b2).accept := hacc
      _ = (dfa.stateF ((repsList dfa (swapMapF dfa (distTable dfa))).getD b2 0)).accept :=
          minimize_accept_flag hwf hne hb2
      _ = (dfa.stateF a2).accept := (urel_flags hab2).symm

theorem reps_not_equiv {dfa : Dfa} (hwf : dfa.Wf) {p q : ℕ}
    (hp : p < cntU (swapMapF dfa (distTable dfa)) dfa.states.length)
    (hq : q < cntU (swapMapF dfa (distTable dfa)) dfa.states.length)
    (hpq : p ≠ q) :
    ¬ DfaEquiv dfa ((repsList dfa (swapMapF dfa (distTable dfa))).getD p 0)
      ((repsList dfa (swapMapF dfa (distTable dfa))).getD q 0) := by
  intro heq
  have hrp := repsList_mem hp
  have hrq := repsList_mem hq
  have hne' : (repsList dfa (swapMapF dfa (distTable dfa))).getD p 0 ≠
      (repsList dfa (swapMapF dfa (distTable dfa))).getD q 0 := by
    intro hc
    apply hpq
    rw [← getD_cntU hp, ← getD_cntU hq, hc]
  rcases Nat.lt_or_ge ((repsList dfa (swapMapF dfa (distTable dfa))).getD p 0)
      ((repsList dfa (swapMapF dfa (distTable dfa))).getD q 0) with hlt | hge
  · have hd := swap_none_spec hrq.1 hrq.2 _ hlt
    exact distTable_sound hwf _ _ hlt hrq.1 hd heq
  · have hlt2 : (repsList dfa (swapMapF dfa (distTable dfa))).getD q 0 <
        (repsList dfa (swapMapF dfa (distTable dfa))).getD p 0 := by omega
    have hd := swap_none_spec hrp.1 hrp.2 _ hlt2
    exact distTable_sound hwf _ _ hlt2 hrp.1 hd (dfaEquiv_symm heq)

theorem minimize_no_equiv {dfa : Dfa} (hwf : dfa.Wf) :
    ∀ i j, i < j → j < dfa.minimize.states.length → ¬ DfaEquiv dfa.minimize i j := by
  by_cases hall : (List.range dfa.states.length).all
      (fun j => (swapMapF dfa (distTable dfa) j).isNone) = true
  · rw [minimize_all_none hall]
    intro i j hij hj heq
    have h2 := List.all_eq_true.mp hall j (List.mem_range.mpr hj)
    have h3 : (swapMapF dfa (distTable dfa) j).isNone = true := h2
    have hnone := Option.isNone_iff_eq_none.mp h3
    have hd := swap_none_spec hj hnone i hij
    exact distTable_sound hwf i j hij hj hd heq
  · intro i j hij hj heq
    have hlen := (minimize_else_spec hwf hall).1
    rw [hlen] at hj
    exact reps_not_equiv hwf (by omega) hj (by omega)
      (min_equiv_transfer hwf hall (by omega) hj heq)

/-- Claim C6: minimization never increases the state count, strictly
decreases it when two behaviorally indistinguishable states exist, leaves a
DFA with pairwise distinguishable states unchanged, and a second pass keeps
the state count of the first. -/
theorem claim_C6 (dfa : Dfa) (hwf : dfa.Wf) :
    dfa.minimize.states.length ≤ dfa.states.length ∧
    ((∃ i j, i < j ∧ j < dfa.states.length ∧ DfaEquiv dfa i j) →
      dfa.minimize.states.length < dfa.states.length) ∧
    ((∀ i j, i < j → j < dfa.states.length → ¬ DfaEquiv dfa i j) →
      dfa.minimize = dfa) ∧
    dfa.minimize.minimize.states.length = dfa.minimize.states.length := by
  refine ⟨?_, ?_, ?_, ?_⟩
  · by_cases hall : (List.range dfa.states.length).all
        (fun j => (swapMapF dfa (distTable dfa) j).isNone) = true
    · rw [minimize_all_none hall]
    · rw [(minimize_else_spec hwf hall).1]
      exact le_of_lt (ms_lt_of_not_all hall)
  · rintro ⟨i, j, hij, hj, heq⟩
    have hd : distTable dfa i j = false := by
      cases hdd : distTable dfa i j with
      | false => rfl
      | true => exact absurd heq (distTable_sound hwf i j hij hj hdd)
    have hsome : swapMapF dfa (distTable dfa) j ≠ none := by
      intro hnone
      have h2 := swap_none_spec hj hnone i hij
      rw [hd] at h2
      cases h2
    have hne : ¬ ((List.range dfa.states.length).all
        (fun j => (swapMapF dfa (distTable dfa) j).isNone) = true) := by
      intro hall
      have h2 := List.all_eq_true.mp hall j (List.mem_range.mpr hj)
      have h3 : (swapMapF dfa (distTable dfa) j).isNone = true := h2
      exact hsome (Option.isNone_iff_eq_none.mp h3)
    rw [(minimize_else_spec hwf hne).1]
    exact ms_lt_of_not_all hne
  · exact minimize_of_no_equiv hwf
  · rw [minimize_of_no_equiv (minimize_wf hwf) (minimize_no_equiv hwf)]

/-- Witness for claim C6 at the two-state DFA of the pipeline for the regex
of a single literal. -/
theorem claim_C6_witness :
    dfaAListed.minimize.states.length ≤ dfaAListed.states.length ∧
    ((∃ i j, i < j ∧ j < dfaAListed.states.length ∧ DfaEquiv dfaAListed i j) →
      dfaAListed.minimize.states.length < dfaAListed.states.length) ∧
    ((∀ i j, i < j → j < dfaAListed.states.length → ¬ DfaEquiv dfaAListed i j) →
      dfaAListed.minimize = dfaAListed) ∧
    dfaAListed.minimize.minimize.states.length =
      dfaAListed.minimize.states.length :=
  claim_C6 dfaAListed (dfaWf_of_b (by decide))

end MinimizeClaims

end Re
